import Mathlib

/-!
Verification of the LLMlite repository against its specification.

Each Python function relevant to a claim is shallowly embedded as an
executable Lean definition; integers are `Int` (Python ints are unbounded),
Python lists are `List`, and external effects (the completion service, the
filesystem, JSON parsing by the standard library) are explicit parameters
or explicit state.
-/

namespace LLMlite

/-! ## Memory.get_recent_memories (src/a_sample_agent_framework_improved.py)

`get_recent_memories` returns `self.items[-count:] if count > 0 else []`.
`pySliceFrom l start` models the Python slice `l[start:]` (a negative start
counts from the end and is clamped at 0). -/

def pySliceFrom {α : Type} (l : List α) (start : ℤ) : List α :=
  if start < 0 then l.drop ((l.length + start).toNat) else l.drop start.toNat

def get_recent_memories {α : Type} (items : List α) (count : ℤ) : List α :=
  if count > 0 then pySliceFrom items (-count) else []

/-! ## fibonacci (src/calculate_fibonacci_sequence_u.py)

```
result = []
a, b = 0, 1
while a < n:
    result.append(a)
    a, b = b, a+b
return result
```

The while loop is embedded with a fuel argument; `fibonacci_correct`
(completeness conjunct) shows the chosen fuel lets the loop run to the point
where the guard `a < n` fails, so the embedding computes the full loop. -/

def fibAux (n : ℤ) : ℕ → ℤ → ℤ → List ℤ
  | 0, _, _ => []
  | fuel + 1, a, b => if a < n then a :: fibAux n fuel b (a + b) else []

def fibonacci (n : ℤ) : List ℤ :=
  fibAux n (2 * n.toNat + 3) 0 1

/-- The mathematical Fibonacci sequence 0, 1, 1, 2, 3, ... used to state
what the spec says `fibonacci` returns. -/
def specFib : ℕ → ℤ
  | 0 => 0
  | 1 => 1
  | k + 2 => specFib k + specFib (k + 1)

theorem specFib_nonneg : ∀ k, 0 ≤ specFib k := by
  intro k
  induction k using Nat.strong_induction_on with
  | _ k ih =>
    match k with
    | 0 => simp [specFib]
    | 1 => simp [specFib]
    | k + 2 =>
      have h1 := ih k (by omega)
      have h2 := ih (k + 1) (by omega)
      simp only [specFib]
      omega

theorem specFib_pos : ∀ k, 1 ≤ k → 1 ≤ specFib k := by
  intro k
  induction k using Nat.strong_induction_on with
  | _ k ih =>
    match k with
    | 0 => omega
    | 1 => intro _; simp [specFib]
    | k + 2 =>
      intro _
      have h1 := specFib_nonneg k
      have h2 := ih (k + 1) (by omega) (by omega)
      simp only [specFib]
      omega

theorem specFib_ge : ∀ k : ℕ, (k : ℤ) - 1 ≤ specFib k := by
  intro k
  induction k using Nat.strong_induction_on with
  | _ k ih =>
    match k with
    | 0 => simp [specFib]
    | 1 => simp [specFib]
    | 2 => simp [specFib]
    | k + 3 =>
      have h1 := specFib_pos (k + 1) (by omega)
      have h2 := ih (k + 2) (by omega)
      have h3 : specFib (k + 3) = specFib (k + 1) + specFib (k + 2) := rfl
      rw [h3]
      push_cast at h2 ⊢
      omega

theorem fibAux_mem_lt (n : ℤ) :
    ∀ fuel a b x, x ∈ fibAux n fuel a b → x < n := by
  intro fuel
  induction fuel with
  | zero => intro a b x hx; simp [fibAux] at hx
  | succ fuel ih =>
    intro a b x hx
    simp only [fibAux] at hx
    by_cases h : a < n
    · simp [h] at hx
      rcases hx with rfl | hx
      · exact h
      · exact ih _ _ _ hx
    · simp [h] at hx

theorem fibAux_complete (n : ℤ) :
    ∀ fuel k, n ≤ specFib (k + fuel) →
    ∃ m, fibAux n fuel (specFib k) (specFib (k + 1)) =
          (List.range' k m).map specFib ∧
        (∀ j, k ≤ j → j < k + m → specFib j < n) ∧
        n ≤ specFib (k + m) ∧ m ≤ fuel := by
  intro fuel
  induction fuel with
  | zero =>
    intro k hk
    exact ⟨0, by simp [fibAux], by omega, by simpa using hk, le_refl 0⟩
  | succ fuel ih =>
    intro k hk
    by_cases h : specFib k < n
    · have hk' : n ≤ specFib ((k + 1) + fuel) := by
        have : (k + 1) + fuel = k + (fuel + 1) := by omega
        rw [this]; exact hk
      obtain ⟨m, hm, hlt, hge, hle⟩ := ih (k + 1) hk'
      refine ⟨m + 1, ?_, ?_, ?_, by omega⟩
      · simp only [fibAux, if_pos h]
        rw [List.range'_succ, List.map_cons]
        congr 1
      · intro j hj1 hj2
        rcases Nat.eq_or_lt_of_le hj1 with rfl | hj
        · exact h
        · exact hlt j hj (by omega)
      · have : k + (m + 1) = (k + 1) + m := by omega
        rw [this]; exact hge
    · refine ⟨0, ?_, by omega, ?_, by omega⟩
      · cases fuel <;> simp [fibAux, h]
      · simpa using not_lt.mp h

/-- C5: `fibonacci` returns the ordered, complete sequence of Fibonacci
numbers strictly below `n`: it is empty for `n ≤ 0`, `[0]` for `n = 1`,
`[0,1,1,2,3,5,8]` for `n = 10`, every element is `< n`, consecutive
elements obey the Fibonacci recurrence from index 2 on, and the whole
list is an initial segment of the Fibonacci sequence cut exactly at `n`. -/
theorem fibonacci_correct : ∀ n : ℤ,
    (n ≤ 0 → fibonacci n = []) ∧
    fibonacci 1 = [0] ∧
    fibonacci 10 = [0, 1, 1, 2, 3, 5, 8] ∧
    (∀ x ∈ fibonacci n, x < n) ∧
    (∀ k : ℕ, 2 ≤ k → k < (fibonacci n).length →
      (fibonacci n).getD k 0 = (fibonacci n).getD (k - 1) 0 +
        (fibonacci n).getD (k - 2) 0) ∧
    (∃ K, fibonacci n = (List.range K).map specFib ∧
      (∀ j < K, specFib j < n) ∧ n ≤ specFib K) := by
  intro n
  have hfuel : n ≤ specFib (0 + (2 * n.toNat + 3)) := by
    have h1 := specFib_ge (0 + (2 * n.toNat + 3))
    have h2 : (n : ℤ) ≤ 2 * n.toNat + 2 := by
      rcases le_or_lt n 0 with h | h
      · have : (0 : ℤ) ≤ 2 * n.toNat + 2 := by positivity
        omega
      · have : (n.toNat : ℤ) = n := Int.toNat_of_nonneg h.le
        omega
    calc n ≤ 2 * n.toNat + 2 := h2
      _ = ((0 + (2 * n.toNat + 3) : ℕ) : ℤ) - 1 := by push_cast; ring
      _ ≤ specFib (0 + (2 * n.toNat + 3)) := h1
  obtain ⟨K, hK0, hlt, hge, _⟩ := fibAux_complete n (2 * n.toNat + 3) 0 hfuel
  have hK : fibonacci n = (List.range K).map specFib := by
    have hstart : fibonacci n = fibAux n (2 * n.toNat + 3) (specFib 0) (specFib (0 + 1)) := rfl
    rw [hstart, hK0, List.range_eq_range']
  have hKlt : ∀ j < K, specFib j < n := fun j hj => hlt j (by omega) (by omega)
  have hKge : n ≤ specFib K := by simpa using hge
  refine ⟨?_, by rfl, by rfl, ?_, ?_, ⟨K, hK, hKlt, hKge⟩⟩
  · intro hn
    rcases Nat.eq_zero_or_pos K with rfl | hKpos
    · simpa using hK
    · exfalso
      have h0 := hKlt 0 hKpos
      simp only [specFib] at h0
      omega
  · intro x hx
    exact fibAux_mem_lt n _ _ _ x hx
  · intro k hk2 hklen
    have hlen : (fibonacci n).length = K := by
      rw [hK]; simp
    rw [hK]
    have hkK : k < K := by omega
    have e1 : k - 1 < K := by omega
    have e2 : k - 2 < K := by omega
    rw [List.getD_eq_getElem _ _ (by simpa using hkK),
        List.getD_eq_getElem _ _ (by simpa using e1),
        List.getD_eq_getElem _ _ (by simpa using e2)]
    simp only [List.getElem_map, List.getElem_range]
    have hke : k = (k - 2) + 2 := by omega
    rw [hke]
    have h1e : (k - 2) + 2 - 1 = (k - 2) + 1 := by omega
    have h2e : (k - 2) + 2 - 2 = k - 2 := by omega
    rw [h1e, h2e, specFib]
    ring

/-- C10: `get_recent_memories` returns `[]` for every `count ≤ 0`, and for
`count > 0` exactly the last `min count len` items in their original order
(a suffix of the item list of that length). -/
theorem get_recent_memories_correct {α : Type} (items : List α) (count : ℤ) :
    (count ≤ 0 → get_recent_memories items count = []) ∧
    (0 < count → ∃ pre, items = pre ++ get_recent_memories items count ∧
      (get_recent_memories items count).length = min count.toNat items.length) := by
  constructor
  · intro h
    simp only [get_recent_memories, if_neg (by omega : ¬ count > 0)]
  · intro h
    have hneg : (-count) < 0 := by omega
    simp only [get_recent_memories, if_pos (by omega : count > 0), pySliceFrom,
      if_pos hneg]
    refine ⟨(List.take (((items.length : ℤ) + -count).toNat) items), ?_, ?_⟩
    · exact (List.take_append_drop _ items).symm
    · rw [List.length_drop]
      omega

/-! ## call_with_retries (src/main_improved.py)

```
attempt = 0
while True:
    attempt += 1
    try:
        response = completion(...)
        return response
    except RateLimitError:
        if attempt >= max_attempts:
            raise
        sleep_seconds = base_sleep * (2 ** (attempt - 1))
        time.sleep(sleep_seconds)
    except Exception:
        raise
```

The completion service is external: it is modelled as an oracle giving the
outcome of each attempt (`outcomes i` is the outcome of attempt `i + 1`).
The embedding also records how many attempts were made and which delays
were slept, so the claim about the backoff schedule can be stated. -/

inductive CallOutcome : Type
  | success (text : String)
  | rateLimit
  | otherError
deriving DecidableEq

inductive RetryResult : Type
  | ok (text : String)
  | raisedRateLimit
  | raisedOther
deriving DecidableEq

def call_with_retriesAux (outcomes : ℕ → CallOutcome) (max_attempts : ℤ)
    (base_sleep : ℚ) (attempt : ℕ) (sleeps : List ℚ) :
    RetryResult × ℕ × List ℚ :=
  match outcomes attempt with
  | .success t => (.ok t, attempt + 1, sleeps)
  | .otherError => (.raisedOther, attempt + 1, sleeps)
  | .rateLimit =>
    if ((attempt : ℤ) + 1) ≥ max_attempts then
      (.raisedRateLimit, attempt + 1, sleeps)
    else
      call_with_retriesAux outcomes max_attempts base_sleep (attempt + 1)
        (sleeps ++ [base_sleep * 2 ^ attempt])
termination_by (max_attempts - attempt).toNat
decreasing_by omega

def call_with_retries (outcomes : ℕ → CallOutcome) (max_attempts : ℤ)
    (base_sleep : ℚ) : RetryResult × ℕ × List ℚ :=
  call_with_retriesAux outcomes max_attempts base_sleep 0 []

theorem call_with_retriesAux_success (outcomes : ℕ → CallOutcome)
    (max_attempts : ℤ) (base_sleep : ℚ) (t : String) :
    ∀ (k attempt : ℕ) (sleeps : List ℚ),
    (∀ i < k, outcomes (attempt + i) = CallOutcome.rateLimit) →
    outcomes (attempt + k) = CallOutcome.success t →
    ((attempt : ℤ) + k) < max_attempts →
    call_with_retriesAux outcomes max_attempts base_sleep attempt sleeps =
      (RetryResult.ok t, attempt + k + 1,
        sleeps ++ (List.range' attempt k).map (fun i => base_sleep * 2 ^ i)) := by
  intro k
  induction k with
  | zero =>
    intro attempt sleeps _ hsucc _
    rw [call_with_retriesAux]
    simp only [Nat.add_zero] at hsucc
    rw [hsucc]
    simp
  | succ k ih =>
    intro attempt sleeps hrl hsucc hbound
    rw [call_with_retriesAux]
    have h0 : outcomes attempt = CallOutcome.rateLimit := by
      simpa using hrl 0 (by omega)
    rw [h0]
    rw [if_neg (by omega)]
    have := ih (attempt + 1) (sleeps ++ [base_sleep * 2 ^ attempt])
      (fun i hi => by
        have h := hrl (i + 1) (by omega)
        have he : attempt + 1 + i = attempt + (i + 1) := by omega
        rw [he]; exact h)
      (by have : attempt + 1 + k = attempt + (k + 1) := by omega
          rw [this]; exact hsucc)
      (by push_cast; push_cast at hbound; omega)
    rw [this, List.range'_succ, List.map_cons]
    simp [List.append_assoc]
    omega

theorem call_with_retriesAux_exhaust (outcomes : ℕ → CallOutcome)
    (max_attempts : ℤ) (base_sleep : ℚ)
    (hall : ∀ i : ℕ, (i : ℤ) < max_attempts → outcomes i = CallOutcome.rateLimit) :
    ∀ (n attempt : ℕ) (sleeps : List ℚ),
    n = max_attempts.toNat - attempt - 1 → (attempt : ℤ) < max_attempts →
    call_with_retriesAux outcomes max_attempts base_sleep attempt sleeps =
      (RetryResult.raisedRateLimit, max_attempts.toNat,
        sleeps ++ (List.range' attempt (max_attempts.toNat - 1 - attempt)).map
          (fun i => base_sleep * 2 ^ i)) := by
  intro n
  induction n with
  | zero =>
    intro attempt sleeps hn hlt
    rw [call_with_retriesAux, hall attempt hlt]
    rw [if_pos (by omega)]
    have h1 : attempt + 1 = max_attempts.toNat := by omega
    have h2 : max_attempts.toNat - 1 - attempt = 0 := by omega
    rw [h1, h2]
    simp
  | succ n ih =>
    intro attempt sleeps hn hlt
    rw [call_with_retriesAux, hall attempt hlt]
    rw [if_neg (by omega)]
    rw [ih (attempt + 1) (sleeps ++ [base_sleep * 2 ^ attempt]) (by omega) (by push_cast; omega)]
    have h3 : max_attempts.toNat - 1 - attempt = (max_attempts.toNat - 1 - (attempt + 1)) + 1 := by
      omega
    rw [h3, List.range'_succ, List.map_cons]
    simp [List.append_assoc]

/-- C3: the retry loop of `call_with_retries`: `k` rate-limit failures
(`k < max_attempts`) followed by a success make exactly `k + 1` attempts with
delays `base_sleep * 2 ^ i` slept after failed attempt `i + 1`; rate-limit
failures on every attempt up to `max_attempts` re-raise the rate-limit error
after exactly `max_attempts` attempts; any other error kind is re-raised
immediately after the first attempt with no sleeps. -/
theorem call_with_retries_correct :
    ∀ (outcomes : ℕ → CallOutcome) (max_attempts : ℤ) (base_sleep : ℚ) (t : String),
    (∀ k : ℕ, (k : ℤ) < max_attempts →
      (∀ i < k, outcomes i = CallOutcome.rateLimit) →
      outcomes k = CallOutcome.success t →
      call_with_retries outcomes max_attempts base_sleep =
        (RetryResult.ok t, k + 1,
          (List.range k).map (fun i => base_sleep * 2 ^ i))) ∧
    (1 ≤ max_attempts →
      (∀ i : ℕ, (i : ℤ) < max_attempts → outcomes i = CallOutcome.rateLimit) →
      call_with_retries outcomes max_attempts base_sleep =
        (RetryResult.raisedRateLimit, max_attempts.toNat,
          (List.range (max_attempts.toNat - 1)).map (fun i => base_sleep * 2 ^ i))) ∧
    (outcomes 0 = CallOutcome.otherError →
      call_with_retries outcomes max_attempts base_sleep =
        (RetryResult.raisedOther, 1, [])) := by
  intro outcomes max_attempts base_sleep t
  refine ⟨?_, ?_, ?_⟩
  · intro k hk hrl hsucc
    have := call_with_retriesAux_success outcomes max_attempts base_sleep t k 0 []
      (fun i hi => by simpa using hrl i hi) (by simpa using hsucc) (by push_cast; omega)
    rw [call_with_retries, this]
    simp [List.range_eq_range']
  · intro hpos hall
    have := call_with_retriesAux_exhaust outcomes max_attempts base_sleep hall
      (max_attempts.toNat - 1) 0 [] (by omega) (by push_cast; omega)
    rw [call_with_retries, this]
    simp [List.range_eq_range']
  · intro h0
    rw [call_with_retries, call_with_retriesAux, h0]

/-! ## insert_interval (src/given_a_set_of_nonoverlapping_.py)

```
result = []
i = 0
while i < n and intervals[i][1] < new_interval[0]:
    result.append(intervals[i]); i += 1
while i < n and intervals[i][0] <= new_interval[1]:
    new_interval[0] = min(new_interval[0], intervals[i][0])
    new_interval[1] = max(new_interval[1], intervals[i][1])
    i += 1
result.append(new_interval)
while i < n:
    result.append(intervals[i]); i += 1
return result
```

An interval `[start, end]` is a pair `(ℤ × ℤ)`. The first while loop is a
`takeWhile`/`dropWhile` split on `end < new_interval[0]`; the second loop
(`mergeLoop`) folds the overlapping intervals into the new one, re-reading
the updated `new_interval[1]` each iteration exactly as the Python does. -/

def mergeLoop (newI : ℤ × ℤ) : List (ℤ × ℤ) → (ℤ × ℤ) × List (ℤ × ℤ)
  | [] => (newI, [])
  | iv :: rest =>
    if iv.1 ≤ newI.2 then mergeLoop (min newI.1 iv.1, max newI.2 iv.2) rest
    else (newI, iv :: rest)

def insert_interval (intervals : List (ℤ × ℤ)) (new_interval : ℤ × ℤ) :
    List (ℤ × ℤ) :=
  let before := intervals.takeWhile (fun iv => iv.2 < new_interval.1)
  let rest := intervals.dropWhile (fun iv => iv.2 < new_interval.1)
  let m := mergeLoop new_interval rest
  before ++ m.1 :: m.2

theorem mergeLoop_fst_le (newI : ℤ × ℤ) :
    ∀ l : List (ℤ × ℤ), (mergeLoop newI l).1.1 ≤ newI.1 ∧
      newI.2 ≤ (mergeLoop newI l).1.2 := by
  intro l
  induction l generalizing newI with
  | nil => simp [mergeLoop]
  | cons iv rest ih =>
    by_cases h : iv.1 ≤ newI.2
    · simp only [mergeLoop, if_pos h]
      obtain ⟨h1, h2⟩ := ih (min newI.1 iv.1, max newI.2 iv.2)
      constructor
      · exact le_trans h1 (by simp)
      · exact le_trans (by simp) h2
    · simp [mergeLoop, if_neg h]

theorem mergeLoop_fst_wf (newI : ℤ × ℤ) (hnew : newI.1 ≤ newI.2) :
    ∀ l : List (ℤ × ℤ), (mergeLoop newI l).1.1 ≤ (mergeLoop newI l).1.2 := by
  intro l
  induction l generalizing newI with
  | nil => simpa [mergeLoop] using hnew
  | cons iv rest ih =>
    by_cases h : iv.1 ≤ newI.2
    · simp only [mergeLoop, if_pos h]
      refine ih _ ?_
      exact le_trans (min_le_left _ _) (le_trans hnew (le_max_left _ _))
    · simpa [mergeLoop, if_neg h] using hnew

theorem mergeLoop_fst_gt (c : ℤ) (newI : ℤ × ℤ) :
    ∀ l : List (ℤ × ℤ), c < newI.1 → (∀ iv ∈ l, c < iv.1) →
    c < (mergeLoop newI l).1.1 := by
  intro l
  induction l generalizing newI with
  | nil => intro h _; simpa [mergeLoop] using h
  | cons iv rest ih =>
    intro h hall
    by_cases hc : iv.1 ≤ newI.2
    · simp only [mergeLoop, if_pos hc]
      refine ih _ ?_ (fun x hx => hall x (by simp [hx]))
      simp only [lt_min_iff]
      exact ⟨h, hall iv (by simp)⟩
    · simpa [mergeLoop, if_neg hc] using h

theorem mergeLoop_snd_suffix (newI : ℤ × ℤ) :
    ∀ l : List (ℤ × ℤ), (mergeLoop newI l).2 <:+ l := by
  intro l
  induction l generalizing newI with
  | nil => simp [mergeLoop]
  | cons iv rest ih =>
    by_cases h : iv.1 ≤ newI.2
    · simp only [mergeLoop, if_pos h]
      exact (ih _).trans (List.suffix_cons iv rest)
    · simp [mergeLoop, if_neg h]

theorem mergeLoop_snd_gt (newI : ℤ × ℤ) :
    ∀ l : List (ℤ × ℤ), (∀ iv ∈ l, iv.1 ≤ iv.2) →
    l.Pairwise (fun x y => x.2 < y.1) →
    ∀ y ∈ (mergeLoop newI l).2, (mergeLoop newI l).1.2 < y.1 := by
  intro l
  induction l generalizing newI with
  | nil => simp [mergeLoop]
  | cons iv rest ih =>
    intro hwf hpw y hy
    by_cases h : iv.1 ≤ newI.2
    · simp only [mergeLoop, if_pos h] at hy ⊢
      exact ih _ (fun x hx => hwf x (by simp [hx])) (List.Pairwise.of_cons hpw) y hy
    · simp only [mergeLoop, if_neg h] at hy ⊢
      rcases List.mem_cons.mp hy with rfl | hy
      · omega
      · have h1 : iv.2 < y.1 := (List.pairwise_cons.mp hpw).1 y hy
        have h2 : iv.1 ≤ iv.2 := hwf iv (by simp)
        omega

/-- C1: on a list of well-formed (`start ≤ end`), pairwise non-overlapping
intervals sorted by start, `insert_interval` yields a list that is again
pairwise non-overlapping (each interval ends strictly before the next
starts), sorted by start, well-formed, contains an interval covering the new
interval (the merged new interval), and equals `[new_interval]` when the
input list is empty. -/
theorem insert_interval_correct (intervals : List (ℤ × ℤ))
    (new_interval : ℤ × ℤ)
    (hwf : ∀ iv ∈ intervals, iv.1 ≤ iv.2)
    (hdisj : intervals.Pairwise (fun x y => x.2 < y.1))
    (hnew : new_interval.1 ≤ new_interval.2) :
    (∀ iv ∈ insert_interval intervals new_interval, iv.1 ≤ iv.2) ∧
    (insert_interval intervals new_interval).Pairwise (fun x y => x.2 < y.1) ∧
    (insert_interval intervals new_interval).Pairwise (fun x y => x.1 ≤ y.1) ∧
    (∃ iv ∈ insert_interval intervals new_interval,
      iv.1 ≤ new_interval.1 ∧ new_interval.2 ≤ iv.2) ∧
    (intervals = [] → insert_interval intervals new_interval = [new_interval]) := by
  set p : ℤ × ℤ → Bool := fun iv => iv.2 < new_interval.1 with hp
  set before := intervals.takeWhile p with hbefore
  set rest := intervals.dropWhile p with hrest
  have hsplit : before ++ rest = intervals := by
    rw [hbefore, hrest]; exact List.takeWhile_append_dropWhile p intervals
  have hres : insert_interval intervals new_interval =
      before ++ (mergeLoop new_interval rest).1 :: (mergeLoop new_interval rest).2 := rfl
  set merged := (mergeLoop new_interval rest).1 with hmerged
  set suf := (mergeLoop new_interval rest).2 with hsuf
  have hwf' : ∀ iv ∈ before ++ rest, iv.1 ≤ iv.2 := by rw [hsplit]; exact hwf
  have hwfB : ∀ iv ∈ before, iv.1 ≤ iv.2 := fun iv h => hwf' iv (by simp [h])
  have hwfR : ∀ iv ∈ rest, iv.1 ≤ iv.2 := fun iv h => hwf' iv (by simp [h])
  have hdisj' : (before ++ rest).Pairwise (fun x y => x.2 < y.1) := by
    rw [hsplit]; exact hdisj
  rw [List.pairwise_append] at hdisj'
  obtain ⟨hpwB, hpwR, hcross⟩ := hdisj'
  have hbeforeLt : ∀ x ∈ before, x.2 < new_interval.1 := by
    intro x hx
    have := List.mem_takeWhile_imp hx
    simpa [hp] using this
  have hsufSuffix : suf <:+ rest := mergeLoop_snd_suffix new_interval rest
  have hsufSub : ∀ y ∈ suf, y ∈ rest := fun y hy => hsufSuffix.sublist.subset hy
  have hpwS : suf.Pairwise (fun x y => x.2 < y.1) := hpwR.sublist hsufSuffix.sublist
  have hwfS : ∀ iv ∈ suf, iv.1 ≤ iv.2 := fun iv h => hwfR iv (hsufSub iv h)
  have hmergedWf : merged.1 ≤ merged.2 := mergeLoop_fst_wf new_interval hnew rest
  have hmergedLe := mergeLoop_fst_le new_interval rest
  have hmergedGtB : ∀ x ∈ before, x.2 < merged.1 := by
    intro x hx
    exact mergeLoop_fst_gt x.2 new_interval rest (hbeforeLt x hx)
      (fun iv hiv => hcross x hx iv hiv)
  have hmergedLtS : ∀ y ∈ suf, merged.2 < y.1 :=
    mergeLoop_snd_gt new_interval rest hwfR hpwR
  have hpwRes : (insert_interval intervals new_interval).Pairwise
      (fun x y => x.2 < y.1) := by
    rw [hres, List.pairwise_append]
    refine ⟨hpwB, ?_, ?_⟩
    · rw [List.pairwise_cons]
      exact ⟨hmergedLtS, hpwS⟩
    · intro x hx y hy
      rcases List.mem_cons.mp hy with rfl | hy
      · exact hmergedGtB x hx
      · exact hcross x hx y (hsufSub y hy)
  have hwfRes : ∀ iv ∈ insert_interval intervals new_interval, iv.1 ≤ iv.2 := by
    rw [hres]
    intro iv hiv
    rcases List.mem_append.mp hiv with h | h
    · exact hwfB iv h
    · rcases List.mem_cons.mp h with rfl | h
      · exact hmergedWf
      · exact hwfS iv h
  refine ⟨hwfRes, hpwRes, ?_, ?_, ?_⟩
  · exact hpwRes.imp_of_mem (fun ha hb hr => by
      have := hwfRes _ ha
      omega)
  · exact ⟨merged, by rw [hres]; simp, hmergedLe.1, hmergedLe.2⟩
  · intro hempty
    subst hempty
    simp [insert_interval, mergeLoop]

/-! ## max_running_time (src/maximum_running_time_of_n_comp.py)

```
if not tasks: return 0
def can_assign(mid):
    count = 1
    total = 0
    for task in tasks:
        if task > mid: return False
        if total + task <= mid: total += task
        else:
            count += 1
            total = task
            if count > N: return False
    return True
low = max(tasks); high = sum(tasks)
max_time = 0
while low <= high:
    mid = (low + high) // 2
    if can_assign(mid): max_time = mid; high = mid - 1
    else: low = mid + 1
return max_time
```

Python `//` on the nonnegative values arising here is floor division, which
is `Int` division (`Int.ediv`, the `/` of ℤ) for the positive divisor 2. -/

def can_assignAux (N mid : ℤ) : List ℤ → ℤ → ℤ → Bool
  | [], _, _ => true
  | t :: rest, count, total =>
    if t > mid then false
    else if total + t ≤ mid then can_assignAux N mid rest count (total + t)
    else if count + 1 > N then false
    else can_assignAux N mid rest (count + 1) t

def can_assign (tasks : List ℤ) (N mid : ℤ) : Bool :=
  can_assignAux N mid tasks 1 0

def pyMax : List ℤ → ℤ
  | [] => 0
  | t :: rest => rest.foldl max t

def bsearch (p : ℤ → Bool) (low high acc : ℤ) : ℤ :=
  if low ≤ high then
    let mid := (low + high) / 2
    if p mid then bsearch p low (mid - 1) mid
    else bsearch p (mid + 1) high acc
  else acc
termination_by (high + 1 - low).toNat
decreasing_by
  all_goals omega

def max_running_time (tasks : List ℤ) (N : ℤ) : ℤ :=
  if tasks = [] then 0
  else bsearch (fun mid => can_assign tasks N mid) (pyMax tasks) tasks.sum 0

theorem bsearch_mid_bounds (low high : ℤ) (h : low ≤ high) :
    low ≤ (low + high) / 2 ∧ (low + high) / 2 ≤ high := by
  omega

theorem bsearch_all_false (p : ℤ → Bool) :
    ∀ (n : ℕ) (low high acc : ℤ), (high + 1 - low).toNat ≤ n →
    (∀ x, low ≤ x → x ≤ high → p x = false) →
    bsearch p low high acc = acc := by
  intro n
  induction n with
  | zero =>
    intro low high acc hn _
    rw [bsearch, if_neg (by omega)]
  | succ n ih =>
    intro low high acc hn hall
    by_cases h : low ≤ high
    · obtain ⟨hm1, hm2⟩ := bsearch_mid_bounds low high h
      rw [bsearch, if_pos h]
      simp only
      rw [hall _ hm1 hm2, if_neg (by simp)]
      exact ih _ high acc (by omega) (fun x hx1 hx2 => hall x (by omega) hx2)
    · rw [bsearch, if_neg h]

theorem bsearch_least (p : ℤ → Bool)
    (hmono : ∀ x y : ℤ, x ≤ y → p x = true → p y = true) :
    ∀ (n : ℕ) (low high acc L : ℤ), (high + 1 - low).toNat ≤ n →
    low ≤ L → L ≤ high → p L = true → (∀ x, x < L → p x = false) →
    bsearch p low high acc = L := by
  intro n
  induction n with
  | zero =>
    intro low high acc L hn hlow hhigh _ _
    omega
  | succ n ih =>
    intro low high acc L hn hlow hhigh hL hbelow
    have h : low ≤ high := le_trans hlow hhigh
    obtain ⟨hm1, hm2⟩ := bsearch_mid_bounds low high h
    rw [bsearch, if_pos h]
    simp only
    by_cases hp : p ((low + high) / 2) = true
    · rw [hp, if_pos rfl]
      have hmL : L ≤ (low + high) / 2 := by
        by_contra hc
        have := hbelow ((low + high) / 2) (by omega)
        rw [this] at hp
        exact Bool.false_ne_true hp
      rcases eq_or_lt_of_le hmL with heq | hlt
      · rw [← heq]
        exact bsearch_all_false p n low (L - 1) L (by omega)
          (fun x hx1 hx2 => hbelow x (by omega))
      · exact ih low ((low + high) / 2 - 1) _ L (by omega) hlow (by omega) hL hbelow
    · rw [Bool.not_eq_true] at hp
      rw [hp, if_neg (by simp)]
      have hmL : (low + high) / 2 < L := by
        by_contra hc
        rw [hmono L _ (by omega) hL] at hp
        simp at hp
      exact ih ((low + high) / 2 + 1) high acc L (by omega) (by omega) hhigh hL hbelow

theorem can_assignAux_mono (N N' mid mid' : ℤ) (hN : N ≤ N') (hmid : mid ≤ mid') :
    ∀ (tasks : List ℤ) (c tot c' tot' : ℤ),
    (∀ t ∈ tasks, 0 < t) → 0 ≤ tot → 0 ≤ tot' → 1 ≤ c' →
    (c = 1 ∨ c ≤ N) →
    (c' < c ∨ (c' = c ∧ tot' ≤ tot)) →
    can_assignAux N mid tasks c tot = true →
    can_assignAux N' mid' tasks c' tot' = true := by
  intro tasks
  induction tasks with
  | nil => intro c tot c' tot' _ _ _ _ _ _ _; rfl
  | cons t rest ih =>
    intro c tot c' tot' hpos htot htot' hc' hlive hinv hrun
    have hpt : 0 < t := hpos t (by simp)
    simp only [can_assignAux] at hrun
    have htm : t ≤ mid := by
      by_contra hc
      rw [if_pos (by omega : t > mid)] at hrun
      exact Bool.false_ne_true hrun
    rw [if_neg (by omega : ¬ t > mid)] at hrun
    have hposR : ∀ x ∈ rest, 0 < x := fun x hx => hpos x (by simp [hx])
    simp only [can_assignAux]
    rw [if_neg (by omega : ¬ t > mid')]
    by_cases hfit : tot + t ≤ mid
    · rw [if_pos hfit] at hrun
      by_cases hfit' : tot' + t ≤ mid'
      · rw [if_pos hfit']
        exact ih c (tot + t) c' (tot' + t) hposR (by omega) (by omega) hc'
          hlive (by omega) hrun
      · rw [if_neg hfit']
        have hlt : c' < c := by
          rcases hinv with h | ⟨rfl, hle⟩
          · exact h
          · omega
        have hcN : c ≤ N := by
          rcases hlive with rfl | h
          · omega
          · exact h
        rw [if_neg (by omega : ¬ c' + 1 > N')]
        exact ih c (tot + t) (c' + 1) t hposR (by omega) (by omega) (by omega)
          hlive (by omega) hrun
    · rw [if_neg hfit] at hrun
      have hcount : ¬ c + 1 > N := by
        by_contra hc
        rw [if_pos hc] at hrun
        exact Bool.false_ne_true hrun
      rw [if_neg hcount] at hrun
      have hc'le : c' ≤ c := by rcases hinv with h | ⟨rfl, _⟩ <;> omega
      by_cases hfit' : tot' + t ≤ mid'
      · rw [if_pos hfit']
        exact ih (c + 1) t c' (tot' + t) hposR (by omega) (by omega) hc'
          (by omega) (by omega) hrun
      · rw [if_neg hfit', if_neg (by omega : ¬ c' + 1 > N')]
        exact ih (c + 1) t (c' + 1) t hposR (by omega) (by omega) (by omega)
          (by omega) (by omega) hrun

theorem can_assignAux_of_room :
    ∀ (tasks : List ℤ) (N mid c tot : ℤ),
    (∀ t ∈ tasks, t ≤ mid) → c + (tasks.length : ℤ) ≤ N →
    can_assignAux N mid tasks c tot = true := by
  intro tasks
  induction tasks with
  | nil => intro N mid c tot _ _; rfl
  | cons t rest ih =>
    intro N mid c tot hle hroom
    have ht : t ≤ mid := hle t (by simp)
    simp only [List.length_cons] at hroom
    push_cast at hroom
    simp only [can_assignAux]
    rw [if_neg (by omega : ¬ t > mid)]
    by_cases h2 : tot + t ≤ mid
    · rw [if_pos h2]
      exact ih N mid c (tot + t) (fun x hx => hle x (by simp [hx])) (by omega)
    · rw [if_neg h2, if_neg (by omega : ¬ c + 1 > N)]
      exact ih N mid (c + 1) t (fun x hx => hle x (by simp [hx])) (by omega)

theorem can_assignAux_all_le :
    ∀ (tasks : List ℤ) (N mid c tot : ℤ),
    can_assignAux N mid tasks c tot = true → ∀ t ∈ tasks, t ≤ mid := by
  intro tasks
  induction tasks with
  | nil => simp
  | cons t rest ih =>
    intro N mid c tot hrun x hx
    simp only [can_assignAux] at hrun
    have htm : t ≤ mid := by
      by_contra hc
      rw [if_pos (by omega : t > mid)] at hrun
      exact Bool.false_ne_true hrun
    rw [if_neg (by omega : ¬ t > mid)] at hrun
    rcases List.mem_cons.mp hx with rfl | hx
    · exact htm
    · by_cases h2 : tot + t ≤ mid
      · rw [if_pos h2] at hrun
        exact ih N mid c (tot + t) hrun x hx
      · rw [if_neg h2] at hrun
        by_cases h3 : c + 1 > N
        · rw [if_pos h3] at hrun
          exact absurd hrun Bool.false_ne_true
        · rw [if_neg h3] at hrun
          exact ih N mid (c + 1) t hrun x hx

theorem can_assignAux_fits :
    ∀ (tasks : List ℤ) (N mid c tot : ℤ),
    (∀ t ∈ tasks, 0 < t) → 0 ≤ tot → tot + tasks.sum ≤ mid →
    can_assignAux N mid tasks c tot = true := by
  intro tasks
  induction tasks with
  | nil => intro N mid c tot _ _ _; rfl
  | cons t rest ih =>
    intro N mid c tot hpos htot hsum
    have ht : 0 < t := hpos t (by simp)
    have hrest : 0 ≤ rest.sum := List.sum_nonneg (fun x hx => (hpos x (by simp [hx])).le)
    simp only [List.sum_cons] at hsum
    simp only [can_assignAux]
    rw [if_neg (by omega : ¬ t > mid), if_pos (by omega : tot + t ≤ mid)]
    exact ih N mid c (tot + t) (fun x hx => hpos x (by simp [hx])) (by omega) (by omega)

theorem can_assignAux_le_one (N mid : ℤ) (hN : N ≤ 1) :
    ∀ (tasks : List ℤ) (tot : ℤ), (∀ t ∈ tasks, 0 < t) → 0 ≤ tot → tot ≤ mid →
    (can_assignAux N mid tasks 1 tot = true ↔ tot + tasks.sum ≤ mid) := by
  intro tasks
  induction tasks with
  | nil =>
    intro tot _ _ htm
    simp only [can_assignAux, List.sum_nil, add_zero]
    exact ⟨fun _ => htm, fun _ => trivial⟩
  | cons t rest ih =>
    intro tot hpos htot htm
    have ht : 0 < t := hpos t (by simp)
    have hrest : 0 ≤ rest.sum := List.sum_nonneg (fun x hx => (hpos x (by simp [hx])).le)
    simp only [can_assignAux, List.sum_cons]
    by_cases h1 : t > mid
    · rw [if_pos h1]
      constructor
      · intro h; exact absurd h Bool.false_ne_true
      · intro h; omega
    · rw [if_neg h1]
      by_cases h2 : tot + t ≤ mid
      · rw [if_pos h2]
        rw [ih (tot + t) (fun x hx => hpos x (by simp [hx])) (by omega) (by omega)]
        omega
      · rw [if_neg h2, if_pos (by omega : (1 : ℤ) + 1 > N)]
        constructor
        · intro h; exact absurd h Bool.false_ne_true
        · intro h; omega

theorem foldl_max_bounds :
    ∀ (l : List ℤ) (a : ℤ), a ≤ l.foldl max a ∧ ∀ x ∈ l, x ≤ l.foldl max a := by
  intro l
  induction l with
  | nil => intro a; simp
  | cons y rest ih =>
    intro a
    obtain ⟨h1, h2⟩ := ih (max a y)
    refine ⟨le_trans (le_max_left a y) h1, ?_⟩
    intro x hx
    rcases List.mem_cons.mp hx with rfl | hx
    · exact le_trans (le_max_right a x) h1
    · exact h2 x hx

theorem foldl_max_mem :
    ∀ (l : List ℤ) (a : ℤ), l.foldl max a = a ∨ l.foldl max a ∈ l := by
  intro l
  induction l with
  | nil => intro a; left; rfl
  | cons y rest ih =>
    intro a
    rcases ih (max a y) with h | h
    · simp only [List.foldl_cons]
      rcases max_choice a y with hm | hm
      · left; rw [h, hm]
      · right; rw [h, hm]; simp
    · right
      simp only [List.foldl_cons]
      exact List.mem_cons_of_mem y h

theorem pyMax_ge (tasks : List ℤ) : ∀ t ∈ tasks, t ≤ pyMax tasks := by
  intro t ht
  match tasks, ht with
  | x :: rest, ht =>
    rcases List.mem_cons.mp ht with rfl | ht
    · exact (foldl_max_bounds rest t).1
    · exact (foldl_max_bounds rest x).2 t ht

theorem pyMax_mem (tasks : List ℤ) (hne : tasks ≠ []) : pyMax tasks ∈ tasks := by
  match tasks with
  | x :: rest =>
    rcases foldl_max_mem rest x with h | h
    · rw [pyMax, h]; simp
    · exact List.mem_cons_of_mem x h

theorem can_assign_mono (tasks : List ℤ) (hpos : ∀ t ∈ tasks, 0 < t)
    (N N' mid mid' : ℤ) (hN : N ≤ N') (hmid : mid ≤ mid')
    (h : can_assign tasks N mid = true) : can_assign tasks N' mid' = true :=
  can_assignAux_mono N N' mid mid' hN hmid tasks 1 0 1 0 hpos le_rfl le_rfl
    le_rfl (Or.inl rfl) (Or.inr ⟨rfl, le_rfl⟩) h

theorem max_running_time_least (tasks : List ℤ) (N : ℤ) (hne : tasks ≠ [])
    (hpos : ∀ t ∈ tasks, 0 < t) :
    can_assign tasks N (max_running_time tasks N) = true ∧
    (∀ x, x < max_running_time tasks N → can_assign tasks N x = false) ∧
    max_running_time tasks N ≤ tasks.sum := by
  have hsum_mem : can_assign tasks N tasks.sum = true :=
    can_assignAux_fits tasks N tasks.sum 1 0 hpos le_rfl (by simp)
  have hbdd : ∀ z : ℤ, can_assign tasks N z = true → pyMax tasks ≤ z := by
    intro z hz
    exact le_trans (le_refl _) (can_assignAux_all_le tasks N z 1 0 hz
      (pyMax tasks) (pyMax_mem tasks hne))
  obtain ⟨L, hL, hLle⟩ := @Int.exists_least_of_bdd
    (fun z => can_assign tasks N z = true)
    ⟨pyMax tasks, hbdd⟩ ⟨tasks.sum, hsum_mem⟩
  have hbelow : ∀ x, x < L → can_assign tasks N x = false := by
    intro x hx
    by_contra hc
    rw [Bool.not_eq_false] at hc
    exact absurd (hLle x hc) (by omega)
  have hLlow : pyMax tasks ≤ L := hbdd L hL
  have hLhigh : L ≤ tasks.sum := hLle tasks.sum hsum_mem
  have hmono : ∀ x y : ℤ, x ≤ y → can_assign tasks N x = true →
      can_assign tasks N y = true :=
    fun x y hxy hx => can_assign_mono tasks hpos N N x y le_rfl hxy hx
  have hres : max_running_time tasks N = L := by
    rw [max_running_time, if_neg hne]
    exact bsearch_least (fun mid => can_assign tasks N mid) hmono
      (tasks.sum + 1 - pyMax tasks).toNat (pyMax tasks) tasks.sum 0 L
      le_rfl hLlow hLhigh hL hbelow
  rw [hres]
  exact ⟨hL, hbelow, hLhigh⟩

/-- C6: `max_running_time` on positive task durations is monotonically
non-increasing in the worker count `N`; when `N` is at least the number of
tasks the result is the largest single task duration; the empty task list
yields 0. -/
theorem max_running_time_correct (tasks : List ℤ) (N1 N2 N : ℤ)
    (hpos : ∀ t ∈ tasks, 0 < t) (h12 : N1 ≤ N2) :
    max_running_time tasks N2 ≤ max_running_time tasks N1 ∧
    (tasks ≠ [] → (tasks.length : ℤ) ≤ N → max_running_time tasks N = pyMax tasks) ∧
    max_running_time [] N = 0 := by
  refine ⟨?_, ?_, by rw [max_running_time, if_pos rfl]⟩
  · by_cases hne : tasks = []
    · subst hne
      simp [max_running_time]
    · obtain ⟨hf1, hb1, _⟩ := max_running_time_least tasks N1 hne hpos
      obtain ⟨hf2, hb2, _⟩ := max_running_time_least tasks N2 hne hpos
      by_contra hc
      have h1feas2 : can_assign tasks N2 (max_running_time tasks N1) = true :=
        can_assign_mono tasks hpos N1 N2 _ _ h12 le_rfl hf1
      have := hb2 (max_running_time tasks N1) (by omega)
      rw [this] at h1feas2
      exact Bool.false_ne_true h1feas2
  · intro hne hN
    have hfeas : can_assign tasks N (pyMax tasks) = true := by
      match tasks, hne with
      | t :: rest, _ =>
        have ht : t ≤ pyMax (t :: rest) := pyMax_ge (t :: rest) t (by simp)
        simp only [can_assign, can_assignAux]
        rw [if_neg (by omega : ¬ t > pyMax (t :: rest)),
            if_pos (by omega : (0 : ℤ) + t ≤ pyMax (t :: rest)), zero_add]
        refine can_assignAux_of_room rest N (pyMax (t :: rest)) 1 t
          (fun x hx => pyMax_ge (t :: rest) x (by simp [hx])) ?_
        simp only [List.length_cons] at hN
        push_cast at hN ⊢
        omega
    have hbelow : ∀ x, x < pyMax tasks → can_assign tasks N x = false := by
      intro x hx
      by_contra hc
      rw [Bool.not_eq_false] at hc
      have := can_assignAux_all_le tasks N x 1 0 hc (pyMax tasks) (pyMax_mem tasks hne)
      omega
    have hmono : ∀ x y : ℤ, x ≤ y → can_assign tasks N x = true →
        can_assign tasks N y = true :=
      fun x y hxy hx => can_assign_mono tasks hpos N N x y le_rfl hxy hx
    have hmax_sum : pyMax tasks ≤ tasks.sum := by
      have hmem := pyMax_mem tasks hne
      exact List.single_le_sum (fun x hx => (hpos x hx).le) _ hmem
    rw [max_running_time, if_neg hne]
    exact bsearch_least (fun mid => can_assign tasks N mid) hmono
      (tasks.sum + 1 - pyMax tasks).toNat (pyMax tasks) tasks.sum 0 (pyMax tasks)
      le_rfl le_rfl hmax_sum hfeas hbelow

/-- C9: with the worker count 0 the feasibility check never fails on the
group count (the initial group is not counted against the limit), so for a
non-empty list of positive durations `max_running_time tasks 0` equals
`max_running_time tasks 1`, and both equal `sum tasks`. -/
theorem max_running_time_zero_workers (tasks : List ℤ)
    (hpos : ∀ t ∈ tasks, 0 < t) (hne : tasks ≠ []) :
    max_running_time tasks 0 = max_running_time tasks 1 ∧
    max_running_time tasks 0 = tasks.sum := by
  have hpp : ∀ x : ℤ, can_assign tasks 0 x = can_assign tasks 1 x := by
    intro x
    rcases le_or_lt 0 x with hx | hx
    · have h0 := can_assignAux_le_one 0 x (by norm_num) tasks 0 hpos le_rfl hx
      have h1 := can_assignAux_le_one 1 x le_rfl tasks 0 hpos le_rfl hx
      rw [can_assign, can_assign, Bool.eq_iff_iff]
      exact h0.trans h1.symm
    · obtain ⟨t0, ht0⟩ := List.exists_mem_of_ne_nil tasks hne
      have hgt : t0 > x := lt_trans hx (hpos t0 ht0)
      have hf : ∀ M : ℤ, can_assign tasks M x = false := by
        intro M
        by_contra hc
        rw [Bool.not_eq_false] at hc
        have := can_assignAux_all_le tasks M x 1 0 hc t0 ht0
        omega
      rw [hf 0, hf 1]
  have heq : max_running_time tasks 0 = max_running_time tasks 1 := by
    rw [max_running_time, max_running_time, if_neg hne, if_neg hne]
    congr 1
    funext mid
    exact hpp mid
  refine ⟨heq, ?_⟩
  have hfeas : can_assign tasks 0 tasks.sum = true :=
    can_assignAux_fits tasks 0 tasks.sum 1 0 hpos le_rfl (by simp)
  have hsum_nonneg : 0 ≤ tasks.sum :=
    List.sum_nonneg (fun x hx => (hpos x hx).le)
  have hbelow : ∀ x, x < tasks.sum → can_assign tasks 0 x = false := by
    intro x hx
    rcases le_or_lt 0 x with hx0 | hx0
    · have h0 := can_assignAux_le_one 0 x (by norm_num) tasks 0 hpos le_rfl hx0
      by_contra hc
      rw [Bool.not_eq_false] at hc
      have := h0.mp hc
      omega
    · obtain ⟨t0, ht0⟩ := List.exists_mem_of_ne_nil tasks hne
      by_contra hc
      rw [Bool.not_eq_false] at hc
      have := can_assignAux_all_le tasks 0 x 1 0 hc t0 ht0
      have := hpos t0 ht0
      omega
  have hmono : ∀ x y : ℤ, x ≤ y → can_assign tasks 0 x = true →
      can_assign tasks 0 y = true :=
    fun x y hxy hx => can_assign_mono tasks hpos 0 0 x y le_rfl hxy hx
  have hmax_sum : pyMax tasks ≤ tasks.sum :=
    List.single_le_sum (fun x hx => (hpos x hx).le) _ (pyMax_mem tasks hne)
  rw [max_running_time, if_neg hne]
  exact bsearch_least (fun mid => can_assign tasks 0 mid) hmono
    (tasks.sum + 1 - pyMax tasks).toNat (pyMax tasks) tasks.sum 0 tasks.sum
    le_rfl hmax_sum le_rfl hfeas hbelow

theorem insert_interval_correct_witness :
    (insert_interval [(1, 3), (6, 9)] (2, 5)).Pairwise (fun x y => x.2 < y.1) :=
  (insert_interval_correct [(1, 3), (6, 9)] (2, 5) (by decide) (by decide)
    (by decide)).2.1

theorem max_running_time_correct_witness :
    max_running_time [1, 2, 3, 4, 5] 3 ≤ max_running_time [1, 2, 3, 4, 5] 2 :=
  (max_running_time_correct [1, 2, 3, 4, 5] 2 3 7 (by decide) (by decide)).1

theorem max_running_time_zero_workers_witness :
    max_running_time [2, 3] 0 = max_running_time [2, 3] 1 :=
  (max_running_time_zero_workers [2, 3] (by decide) (by decide)).1

/-! ## find_median_sorted_arrays (src/median_of_the_2_sorted_arrays.py)

```
if len(nums1) > len(nums2): nums1, nums2 = nums2, nums1
m, n = len(nums1), len(nums2)
imin, imax = 0, m
half_len = (m + n + 1) // 2
while imin <= imax:
    i = (imin + imax) // 2
    j = half_len - i
    if i < m and nums2[j - 1] > nums1[i]: imin = i + 1
    elif i > 0 and nums1[i - 1] > nums2[j]: imax = i - 1
    else:
        if i == 0: max_of_left = nums2[j - 1]
        elif j == 0: max_of_left = nums1[i - 1]
        else: max_of_left = max(nums1[i - 1], nums2[j - 1])
        if (m + n) % 2 == 1: return max_of_left
        if i == m: min_of_right = nums2[j]
        elif j == n: min_of_right = nums1[i]
        else: min_of_right = min(nums1[i], nums2[j])
        return (max_of_left + min_of_right) / 2.0
```

Numeric values are modelled as ℚ. Python list indexing (negative indices
count from the end; out of range raises IndexError) is `pyGet`; a run
either returns a value, falls off the loop returning `None`, or raises
IndexError (`PyResult`). Python `//` on the nonnegative quantities here is
`Int` division. -/

inductive PyResult : Type
  | val (q : ℚ)
  | none_ret
  | indexError
deriving DecidableEq

def pyGet (l : List ℚ) (i : ℤ) : Option ℚ :=
  if 0 ≤ i then
    if h : i.toNat < l.length then some (l.get ⟨i.toNat, h⟩) else none
  else
    if h : 0 ≤ (l.length : ℤ) + i ∧ ((l.length : ℤ) + i).toNat < l.length then
      some (l.get ⟨((l.length : ℤ) + i).toNat, h.2⟩)
    else none

def cond1 (nums1 nums2 : List ℚ) (i j : ℤ) : Option Bool :=
  if i < (nums1.length : ℤ) then
    match pyGet nums2 (j - 1), pyGet nums1 i with
    | some bv, some av => some (decide (bv > av))
    | _, _ => none
  else some false

def cond2 (nums1 nums2 : List ℚ) (i j : ℤ) : Option Bool :=
  if i > 0 then
    match pyGet nums1 (i - 1), pyGet nums2 j with
    | some av, some bv => some (decide (av > bv))
    | _, _ => none
  else some false

def medianElse (nums1 nums2 : List ℚ) (i j : ℤ) : PyResult :=
  match (if i = 0 then pyGet nums2 (j - 1)
         else if j = 0 then pyGet nums1 (i - 1)
         else match pyGet nums1 (i - 1), pyGet nums2 (j - 1) with
              | some x, some y => some (max x y)
              | _, _ => none) with
  | none => .indexError
  | some max_of_left =>
    if ((nums1.length : ℤ) + nums2.length) % 2 = 1 then .val max_of_left
    else
      match (if i = (nums1.length : ℤ) then pyGet nums2 j
             else if j = (nums2.length : ℤ) then pyGet nums1 i
             else match pyGet nums1 i, pyGet nums2 j with
                  | some x, some y => some (min x y)
                  | _, _ => none) with
      | none => .indexError
      | some min_of_right => .val ((max_of_left + min_of_right) / 2)

def medianLoop (nums1 nums2 : List ℚ) (half_len imin imax : ℤ) : PyResult :=
  if imin ≤ imax then
    match cond1 nums1 nums2 ((imin + imax) / 2) (half_len - (imin + imax) / 2) with
    | none => .indexError
    | some true => medianLoop nums1 nums2 half_len ((imin + imax) / 2 + 1) imax
    | some false =>
      match cond2 nums1 nums2 ((imin + imax) / 2) (half_len - (imin + imax) / 2) with
      | none => .indexError
      | some true => medianLoop nums1 nums2 half_len imin ((imin + imax) / 2 - 1)
      | some false =>
        medianElse nums1 nums2 ((imin + imax) / 2) (half_len - (imin + imax) / 2)
  else .none_ret
termination_by (imax + 1 - imin).toNat
decreasing_by all_goals omega

def find_median_sorted_arrays (nums1 nums2 : List ℚ) : PyResult :=
  if nums1.length > nums2.length then
    medianLoop nums2 nums1 (((nums2.length : ℤ) + nums1.length + 1) / 2) 0 nums2.length
  else
    medianLoop nums1 nums2 (((nums1.length : ℤ) + nums2.length + 1) / 2) 0 nums1.length

/-- The median of an already sorted list, as the spec describes it: the
middle element for odd length, the mean of the two middle elements for even
length. -/
def medianOfSorted (c : List ℚ) : ℚ :=
  if c.length % 2 = 1 then c.getD ((c.length + 1) / 2 - 1) 0
  else (c.getD ((c.length + 1) / 2 - 1) 0 + c.getD ((c.length + 1) / 2) 0) / 2

/-- A sorted permutation of `a ++ b`, used to state what the correct median
is. -/
def sortedMerge (a b : List ℚ) : List ℚ :=
  (a ++ b).mergeSort (fun x y => decide (x ≤ y))

theorem sortedMerge_perm (a b : List ℚ) : (sortedMerge a b).Perm (a ++ b) :=
  List.mergeSort_perm (a ++ b) _

theorem sortedMerge_sorted (a b : List ℚ) : (sortedMerge a b).Sorted (· ≤ ·) := by
  have h := @List.sorted_mergeSort _ (fun x y : ℚ => decide (x ≤ y))
    (fun x y z hxy hyz => by
      simp only [decide_eq_true_eq] at *
      exact le_trans hxy hyz)
    (fun x y => by
      simp only [Bool.or_eq_true, decide_eq_true_eq]
      exact le_total x y)
    (a ++ b)
  exact h.imp (fun {x y} hxy => by simpa using hxy)

theorem mergeSort_sorted_rat (l : List ℚ) :
    (l.mergeSort (fun x y => decide (x ≤ y))).Sorted (· ≤ ·) := by
  have h := @List.sorted_mergeSort _ (fun x y : ℚ => decide (x ≤ y))
    (fun x y z hxy hyz => by
      simp only [decide_eq_true_eq] at *
      exact le_trans hxy hyz)
    (fun x y => by
      simp only [Bool.or_eq_true, decide_eq_true_eq]
      exact le_total x y)
    l
  exact h.imp (fun {x y} hxy => by simpa using hxy)

theorem sorted_getD_mono (l : List ℚ) (hl : l.Sorted (· ≤ ·)) (i j : ℕ)
    (hij : i ≤ j) (hj : j < l.length) : l.getD i 0 ≤ l.getD j 0 := by
  rcases eq_or_lt_of_le hij with rfl | hlt
  · exact le_refl _
  · rw [List.getD_eq_getElem _ _ (lt_trans hlt hj), List.getD_eq_getElem _ _ hj]
    exact List.pairwise_iff_getElem.mp hl i j (lt_trans hlt hj) hj hlt

theorem pyGet_eq_getD (l : List ℚ) (i : ℤ) (h0 : 0 ≤ i) (hlen : i < (l.length : ℤ)) :
    pyGet l i = some (l.getD i.toNat 0) := by
  rw [pyGet, if_pos h0]
  have hlt : i.toNat < l.length := by omega
  rw [dif_pos hlt, List.getD_eq_getElem _ _ hlt]
  rfl

theorem getD_mem (l : List ℚ) (k : ℕ) (hk : k < l.length) : l.getD k 0 ∈ l := by
  rw [List.getD_eq_getElem _ _ hk]
  exact l.getElem_mem hk

/-- `i < a.length` and the partner index of `i` in `b` holds a strictly
larger value: the binary search must move right. -/
def tooSmall (a b : List ℚ) (h i : ℕ) : Prop :=
  i < a.length ∧ a.getD i 0 < b.getD (h - i - 1) 0

/-- `0 < i` and the element left of the cut in `a` exceeds the partner in
`b`: the binary search must move left. -/
def tooBig (a b : List ℚ) (h i : ℕ) : Prop :=
  0 < i ∧ b.getD (h - i) 0 < a.getD (i - 1) 0

instance tooSmall_decidable (a b : List ℚ) (h i : ℕ) : Decidable (tooSmall a b h i) :=
  inferInstanceAs (Decidable (i < a.length ∧ a.getD i 0 < b.getD (h - i - 1) 0))

instance tooBig_decidable (a b : List ℚ) (h i : ℕ) : Decidable (tooBig a b h i) :=
  inferInstanceAs (Decidable (0 < i ∧ b.getD (h - i) 0 < a.getD (i - 1) 0))

theorem tooSmall_downward (a b : List ℚ) (ha : a.Sorted (· ≤ ·))
    (hb : b.Sorted (· ≤ ·)) (h : ℕ) (hh1 : 1 ≤ h) (hhn : h ≤ b.length)
    (i i' : ℕ) (hii : i' ≤ i) (hts : tooSmall a b h i) : tooSmall a b h i' := by
  obtain ⟨him, hcmp⟩ := hts
  refine ⟨by omega, ?_⟩
  have h1 : a.getD i' 0 ≤ a.getD i 0 := sorted_getD_mono a ha i' i hii him
  have h2 : b.getD (h - i - 1) 0 ≤ b.getD (h - i' - 1) 0 :=
    sorted_getD_mono b hb (h - i - 1) (h - i' - 1) (by omega) (by omega)
  linarith

theorem tooBig_upward (a b : List ℚ) (ha : a.Sorted (· ≤ ·))
    (hb : b.Sorted (· ≤ ·)) (h : ℕ) (hh1 : 1 ≤ h) (hhn : h ≤ b.length)
    (i i' : ℕ) (hii : i ≤ i') (him : i' ≤ a.length) (htb : tooBig a b h i) :
    tooBig a b h i' := by
  obtain ⟨hi0, hcmp⟩ := htb
  refine ⟨by omega, ?_⟩
  have h1 : a.getD (i - 1) 0 ≤ a.getD (i' - 1) 0 :=
    sorted_getD_mono a ha (i - 1) (i' - 1) (by omega) (by omega)
  have h2 : b.getD (h - i') 0 ≤ b.getD (h - i) 0 :=
    sorted_getD_mono b hb (h - i') (h - i) (by omega) (by omega)
  linarith

theorem exists_good_cut (a b : List ℚ) (h : ℕ) :
    ∃ i, i ≤ a.length ∧ ¬ tooSmall a b h i ∧ ¬ tooBig a b h i := by
  classical
  have hm : ¬ tooSmall a b h a.length := fun ⟨hlt, _⟩ => lt_irrefl _ hlt
  have hex : ∃ i, ¬ tooSmall a b h i := ⟨a.length, hm⟩
  set i0 := Nat.find hex with hi0
  have hi0m : i0 ≤ a.length := Nat.find_min' hex hm
  have hi0P : ¬ tooSmall a b h i0 := Nat.find_spec hex
  refine ⟨i0, hi0m, hi0P, ?_⟩
  intro htb
  obtain ⟨hi0pos, hcmp⟩ := htb
  have hk : tooSmall a b h (i0 - 1) := by
    have := @Nat.find_min _ _ hex (i0 - 1) (by omega)
    by_contra hc
    exact this hc
  obtain ⟨_, hcmp2⟩ := hk
  have he1 : h - (i0 - 1) - 1 = h - i0 := by omega
  have he2 : i0 - 1 = i0 - 1 := rfl
  rw [he1] at hcmp2
  linarith

theorem take_le_getD (l : List ℚ) (hl : l.Sorted (· ≤ ·)) (k : ℕ)
    (hk2 : k ≤ l.length) : ∀ x ∈ l.take k, x ≤ l.getD (k - 1) 0 := by
  intro x hx
  obtain ⟨p, hp, hpe⟩ := List.mem_iff_getElem.mp hx
  have hplen : p < k := by
    have := hp
    rw [List.length_take] at this
    omega
  have hple : p < l.length := by omega
  rw [List.getElem_take] at hpe
  rw [← hpe, ← List.getD_eq_getElem l 0 hple]
  exact sorted_getD_mono l hl p (k - 1) (by omega) (by omega)

theorem getD_le_drop (l : List ℚ) (hl : l.Sorted (· ≤ ·)) (k : ℕ)
    (hk : k < l.length) : ∀ y ∈ l.drop k, l.getD k 0 ≤ y := by
  intro y hy
  obtain ⟨p, hp, hpe⟩ := List.mem_iff_getElem.mp hy
  have hplen : k + p < l.length := by
    have := hp
    rw [List.length_drop] at this
    omega
  rw [List.getElem_drop] at hpe
  rw [← hpe, ← List.getD_eq_getElem l 0 hplen]
  exact sorted_getD_mono l hl k (k + p) (by omega) (by omega)

theorem getD_mem_take (l : List ℚ) (k : ℕ) (hk1 : 1 ≤ k) (hk2 : k ≤ l.length) :
    l.getD (k - 1) 0 ∈ l.take k := by
  have hlen : k - 1 < (l.take k).length := by
    rw [List.length_take]; omega
  have : (l.take k).getD (k - 1) 0 = l.getD (k - 1) 0 := by
    rw [List.getD_eq_getElem _ _ hlen, List.getElem_take,
      List.getD_eq_getElem l 0 (by omega)]
  rw [← this]
  exact getD_mem _ _ hlen

theorem getD_mem_drop (l : List ℚ) (k : ℕ) (hk : k < l.length) :
    l.getD k 0 ∈ l.drop k := by
  have hlen : 0 < (l.drop k).length := by
    rw [List.length_drop]; omega
  have : (l.drop k).getD 0 0 = l.getD k 0 := by
    rw [List.getD_eq_getElem _ _ hlen, List.getElem_drop,
      List.getD_eq_getElem l 0 (by omega)]
    simp
  rw [← this]
  exact getD_mem _ _ hlen

theorem drop_nonempty_lt (l : List ℚ) (k : ℕ) (x : ℚ) (hx : x ∈ l.drop k) :
    k < l.length := by
  by_contra hc
  rw [List.drop_eq_nil_of_le (by omega)] at hx
  simp at hx

theorem take_nonempty_pos (l : List ℚ) (k : ℕ) (x : ℚ) (hx : x ∈ l.take k) :
    1 ≤ k ∧ 1 ≤ l.length := by
  obtain ⟨p, hp, _⟩ := List.mem_iff_getElem.mp hx
  rw [List.length_take] at hp
  omega

theorem sorted_le_last (s : List ℚ) (hs : s.Sorted (· ≤ ·)) (k : ℕ)
    (hk : s.length = k + 1) : ∀ x ∈ s, x ≤ s.getD k 0 := by
  intro x hx
  obtain ⟨p, hp, hpe⟩ := List.mem_iff_getElem.mp hx
  rw [← hpe, ← List.getD_eq_getElem s 0 hp]
  exact sorted_getD_mono s hs p k (by omega) (by omega)

theorem sorted_head_le (s : List ℚ) (hs : s.Sorted (· ≤ ·)) :
    ∀ x ∈ s, s.getD 0 0 ≤ x := by
  intro x hx
  obtain ⟨p, hp, hpe⟩ := List.mem_iff_getElem.mp hx
  rw [← hpe, ← List.getD_eq_getElem s 0 hp]
  exact sorted_getD_mono s hs 0 p (by omega) hp

/-- The value the code picks as `max_of_left` at cut `(i, j)`. -/
def cutMaxLeft (a b : List ℚ) (i j : ℕ) : ℚ :=
  if i = 0 then b.getD (j - 1) 0
  else if j = 0 then a.getD (i - 1) 0
  else max (a.getD (i - 1) 0) (b.getD (j - 1) 0)

/-- The value the code picks as `min_of_right` at cut `(i, j)`. -/
def cutMinRight (a b : List ℚ) (i j : ℕ) : ℚ :=
  if i = a.length then b.getD j 0
  else if j = b.length then a.getD i 0
  else min (a.getD i 0) (b.getD j 0)

theorem cutMaxLeft_spec (a b : List ℚ) (ha : a.Sorted (· ≤ ·))
    (hb : b.Sorted (· ≤ ·)) (i j : ℕ) (him : i ≤ a.length) (hjn : j ≤ b.length)
    (hij1 : 1 ≤ i + j) :
    cutMaxLeft a b i j ∈ a.take i ++ b.take j ∧
    ∀ x ∈ a.take i ++ b.take j, x ≤ cutMaxLeft a b i j := by
  by_cases hi0 : i = 0
  · subst hi0
    have hj1 : 1 ≤ j := by omega
    rw [cutMaxLeft, if_pos rfl]
    constructor
    · simp only [List.take_zero, List.nil_append]
      exact getD_mem_take b j hj1 hjn
    · intro x hx
      simp only [List.take_zero, List.nil_append] at hx
      exact take_le_getD b hb j hjn x hx
  · by_cases hj0 : j = 0
    · subst hj0
      have hi1 : 1 ≤ i := by omega
      rw [cutMaxLeft, if_neg hi0, if_pos rfl]
      constructor
      · simp only [List.take_zero, List.append_nil]
        exact getD_mem_take a i hi1 him
      · intro x hx
        simp only [List.take_zero, List.append_nil] at hx
        exact take_le_getD a ha i him x hx
    · rw [cutMaxLeft, if_neg hi0, if_neg hj0]
      constructor
      · rcases max_choice (a.getD (i - 1) 0) (b.getD (j - 1) 0) with hm | hm <;> rw [hm]
        · exact List.mem_append.mpr (Or.inl (getD_mem_take a i (by omega) him))
        · exact List.mem_append.mpr (Or.inr (getD_mem_take b j (by omega) hjn))
      · intro x hx
        rcases List.mem_append.mp hx with hxa | hxb
        · exact le_trans (take_le_getD a ha i him x hxa) (le_max_left _ _)
        · exact le_trans (take_le_getD b hb j hjn x hxb) (le_max_right _ _)

theorem cutMinRight_spec (a b : List ℚ) (ha : a.Sorted (· ≤ ·))
    (hb : b.Sorted (· ≤ ·)) (i j : ℕ) (him : i ≤ a.length) (hjn : j ≤ b.length)
    (hR : i < a.length ∨ j < b.length) :
    cutMinRight a b i j ∈ a.drop i ++ b.drop j ∧
    ∀ y ∈ a.drop i ++ b.drop j, cutMinRight a b i j ≤ y := by
  by_cases him2 : i = a.length
  · have hjlt : j < b.length := by omega
    rw [cutMinRight, if_pos him2]
    constructor
    · exact List.mem_append.mpr (Or.inr (getD_mem_drop b j hjlt))
    · intro y hy
      rcases List.mem_append.mp hy with hya | hyb
      · rw [him2, List.drop_length] at hya
        simp at hya
      · exact getD_le_drop b hb j hjlt y hyb
  · have hilt : i < a.length := by omega
    by_cases hjn2 : j = b.length
    · rw [cutMinRight, if_neg him2, if_pos hjn2]
      constructor
      · exact List.mem_append.mpr (Or.inl (getD_mem_drop a i hilt))
      · intro y hy
        rcases List.mem_append.mp hy with hya | hyb
        · exact getD_le_drop a ha i hilt y hya
        · rw [hjn2, List.drop_length] at hyb
          simp at hyb
    · have hjlt : j < b.length := by omega
      rw [cutMinRight, if_neg him2, if_neg hjn2]
      constructor
      · rcases min_choice (a.getD i 0) (b.getD j 0) with hm | hm <;> rw [hm]
        · exact List.mem_append.mpr (Or.inl (getD_mem_drop a i hilt))
        · exact List.mem_append.mpr (Or.inr (getD_mem_drop b j hjlt))
      · intro y hy
        rcases List.mem_append.mp hy with hya | hyb
        · exact le_trans (min_le_left _ _) (getD_le_drop a ha i hilt y hya)
        · exact le_trans (min_le_right _ _) (getD_le_drop b hb j hjlt y hyb)

theorem cut_cross (a b : List ℚ) (ha : a.Sorted (· ≤ ·)) (hb : b.Sorted (· ≤ ·))
    (i j : ℕ) (him : i ≤ a.length) (hjn : j ≤ b.length)
    (hAB : 1 ≤ i → a.getD (i - 1) 0 ≤ b.getD j 0)
    (hBA : i < a.length → b.getD (j - 1) 0 ≤ a.getD i 0) :
    ∀ x ∈ a.take i ++ b.take j, ∀ y ∈ a.drop i ++ b.drop j, x ≤ y := by
  intro x hx y hy
  rcases List.mem_append.mp hx with hxa | hxb <;>
    rcases List.mem_append.mp hy with hya | hyb
  · have ha2 := ha
    rw [← List.take_append_drop i a] at ha2
    exact (List.pairwise_append.mp ha2).2.2 x hxa y hya
  · obtain ⟨hi1, _⟩ := take_nonempty_pos a i x hxa
    have hjlt : j < b.length := drop_nonempty_lt b j y hyb
    calc x ≤ a.getD (i - 1) 0 := take_le_getD a ha i him x hxa
      _ ≤ b.getD j 0 := hAB hi1
      _ ≤ y := getD_le_drop b hb j hjlt y hyb
  · have hilt : i < a.length := drop_nonempty_lt a i y hya
    calc x ≤ b.getD (j - 1) 0 := take_le_getD b hb j hjn x hxb
      _ ≤ a.getD i 0 := hBA hilt
      _ ≤ y := getD_le_drop a ha i hilt y hya
  · have hb2 := hb
    rw [← List.take_append_drop j b] at hb2
    exact (List.pairwise_append.mp hb2).2.2 x hxb y hyb

theorem sortedMerge_eq_cut (a b : List ℚ) (i j : ℕ)
    (hcross : ∀ x ∈ a.take i ++ b.take j, ∀ y ∈ a.drop i ++ b.drop j, x ≤ y) :
    sortedMerge a b =
      (a.take i ++ b.take j).mergeSort (fun x y => decide (x ≤ y)) ++
      (a.drop i ++ b.drop j).mergeSort (fun x y => decide (x ≤ y)) := by
  have hsplit : ((a.take i ++ b.take j) ++ (a.drop i ++ b.drop j)).Perm (a ++ b) := by
    rw [List.perm_iff_count]
    intro x
    have h1 : (a.take i).count x + (a.drop i).count x = a.count x := by
      rw [← List.count_append, List.take_append_drop]
    have h2 : (b.take j).count x + (b.drop j).count x = b.count x := by
      rw [← List.count_append, List.take_append_drop]
    simp only [List.count_append]
    omega
  have hpermL := List.mergeSort_perm (a.take i ++ b.take j)
    (fun x y : ℚ => decide (x ≤ y))
  have hpermR := List.mergeSort_perm (a.drop i ++ b.drop j)
    (fun x y : ℚ => decide (x ≤ y))
  have hperm : (sortedMerge a b).Perm
      ((a.take i ++ b.take j).mergeSort (fun x y => decide (x ≤ y)) ++
       (a.drop i ++ b.drop j).mergeSort (fun x y => decide (x ≤ y))) :=
    (sortedMerge_perm a b).trans
      (hsplit.symm.trans ((hpermL.append hpermR).symm))
  have hsorted2 : ((a.take i ++ b.take j).mergeSort (fun x y => decide (x ≤ y)) ++
      (a.drop i ++ b.drop j).mergeSort (fun x y => decide (x ≤ y))).Sorted (· ≤ ·) := by
    apply List.pairwise_append.mpr
    refine ⟨mergeSort_sorted_rat _, mergeSort_sorted_rat _, ?_⟩
    intro x hx y hy
    exact hcross x (hpermL.subset hx) y (hpermR.subset hy)
  exact List.eq_of_perm_of_sorted hperm (sortedMerge_sorted a b) hsorted2

theorem medianElse_correct (a b : List ℚ) (ha : a.Sorted (· ≤ ·))
    (hb : b.Sorted (· ≤ ·)) (hmn : a.length ≤ b.length)
    (hpos : 0 < a.length + b.length) (h i j : ℕ)
    (hhdef : h = (a.length + b.length + 1) / 2)
    (hjdef : j = h - i) (him : i ≤ a.length)
    (hg1 : ¬ tooSmall a b h i) (hg2 : ¬ tooBig a b h i) :
    medianElse a b (i : ℤ) (j : ℤ) =
      PyResult.val (medianOfSorted (sortedMerge a b)) := by
  have hmh : a.length ≤ h := by omega
  have hhn : h ≤ b.length := by omega
  have hh1 : 1 ≤ h := by omega
  have hij : i + j = h := by omega
  have hjn : j ≤ b.length := by omega
  have hij1 : 1 ≤ i + j := by omega
  have hAB : 1 ≤ i → a.getD (i - 1) 0 ≤ b.getD j 0 := by
    intro hi1
    by_contra hc
    apply hg2
    refine ⟨by omega, ?_⟩
    have e : h - i = j := by omega
    rw [e]
    exact lt_of_not_le hc
  have hBA : i < a.length → b.getD (j - 1) 0 ≤ a.getD i 0 := by
    intro hilt
    by_contra hc
    apply hg1
    refine ⟨hilt, ?_⟩
    have e : h - i - 1 = j - 1 := by omega
    rw [e]
    exact lt_of_not_le hc
  have hcross := cut_cross a b ha hb i j him hjn hAB hBA
  have hceq := sortedMerge_eq_cut a b i j hcross
  set L := a.take i ++ b.take j with hLdef
  set R := a.drop i ++ b.drop j with hRdef
  set sL := L.mergeSort (fun x y => decide (x ≤ y)) with hsLdef
  set sR := R.mergeSort (fun x y => decide (x ≤ y)) with hsRdef
  have hsLperm : sL.Perm L := List.mergeSort_perm L _
  have hsRperm : sR.Perm R := List.mergeSort_perm R _
  have hLlen : sL.length = h := by
    rw [hsLperm.length_eq, hLdef]
    simp only [List.length_append, List.length_take]
    omega
  have hRlen : sR.length = a.length + b.length - h := by
    rw [hsRperm.length_eq, hRdef]
    simp only [List.length_append, List.length_drop]
    omega
  have hclen : (sortedMerge a b).length = a.length + b.length := by
    rw [(sortedMerge_perm a b).length_eq, List.length_append]
  have hgetL : (sortedMerge a b).getD (h - 1) 0 = cutMaxLeft a b i j := by
    rw [hceq, List.getD_append _ _ _ _ (by omega)]
    obtain ⟨hmem, hbound⟩ := cutMaxLeft_spec a b ha hb i j him hjn hij1
    apply le_antisymm
    · exact hbound _ (hsLperm.subset (getD_mem sL (h - 1) (by omega)))
    · exact sorted_le_last sL (mergeSort_sorted_rat L) (h - 1) (by omega) _
        (hsLperm.mem_iff.mpr hmem)
  have hoptL : (if (i : ℤ) = 0 then pyGet b ((j : ℤ) - 1)
      else if (j : ℤ) = 0 then pyGet a ((i : ℤ) - 1)
      else match pyGet a ((i : ℤ) - 1), pyGet b ((j : ℤ) - 1) with
           | some x, some y => some (max x y)
           | _, _ => none) = some (cutMaxLeft a b i j) := by
    by_cases hi0 : i = 0
    · have hj1 : 1 ≤ j := by omega
      rw [if_pos (by omega : (i : ℤ) = 0),
        pyGet_eq_getD b _ (by omega) (by omega),
        cutMaxLeft, if_pos hi0]
      congr 2
      omega
    · rw [if_neg (by omega : ¬ (i : ℤ) = 0)]
      by_cases hj0 : j = 0
      · have hi1 : 1 ≤ i := by omega
        rw [if_pos (by omega : (j : ℤ) = 0),
          pyGet_eq_getD a _ (by omega) (by omega),
          cutMaxLeft, if_neg hi0, if_pos hj0]
        congr 2
        omega
      · rw [if_neg (by omega : ¬ (j : ℤ) = 0),
          pyGet_eq_getD a _ (by omega) (by omega),
          pyGet_eq_getD b _ (by omega) (by omega),
          cutMaxLeft, if_neg hi0, if_neg hj0]
        have e1 : ((i : ℤ) - 1).toNat = i - 1 := by omega
        have e2 : ((j : ℤ) - 1).toNat = j - 1 := by omega
        rw [e1, e2]
  rw [medianElse, hoptL]
  simp only []
  by_cases hodd : (a.length + b.length) % 2 = 1
  · rw [if_pos (by omega : ((a.length : ℤ) + b.length) % 2 = 1)]
    rw [medianOfSorted, hclen, if_pos hodd, ← hhdef, hgetL]
  · rw [if_neg (by omega : ¬ ((a.length : ℤ) + b.length) % 2 = 1)]
    have hRpos : 0 < a.length + b.length - h := by omega
    have hRor : i < a.length ∨ j < b.length := by
      simp only [List.length_append, List.length_drop] at hRlen
      omega
    have hgetR : (sortedMerge a b).getD h 0 = cutMinRight a b i j := by
      rw [hceq, List.getD_append_right _ _ _ _ (by omega)]
      have e : h - sL.length = 0 := by omega
      rw [e]
      obtain ⟨hmem, hbound⟩ := cutMinRight_spec a b ha hb i j him hjn hRor
      apply le_antisymm
      · exact sorted_head_le sR (mergeSort_sorted_rat R) _ (hsRperm.mem_iff.mpr hmem)
      · exact hbound _ (hsRperm.subset (getD_mem sR 0 (by omega)))
    have hoptR : (if (i : ℤ) = (a.length : ℤ) then pyGet b (j : ℤ)
        else if (j : ℤ) = (b.length : ℤ) then pyGet a (i : ℤ)
        else match pyGet a (i : ℤ), pyGet b (j : ℤ) with
             | some x, some y => some (min x y)
             | _, _ => none) = some (cutMinRight a b i j) := by
      by_cases him2 : i = a.length
      · have hjlt : j < b.length := by omega
        rw [if_pos (by omega : (i : ℤ) = (a.length : ℤ)),
          pyGet_eq_getD b _ (by omega) (by omega),
          cutMinRight, if_pos him2]
        congr 2
      · rw [if_neg (by omega : ¬ (i : ℤ) = (a.length : ℤ))]
        by_cases hjn2 : j = b.length
        · rw [if_pos (by omega : (j : ℤ) = (b.length : ℤ)),
            pyGet_eq_getD a _ (by omega) (by omega),
            cutMinRight, if_neg him2, if_pos hjn2]
          congr 2
        · rw [if_neg (by omega : ¬ (j : ℤ) = (b.length : ℤ)),
            pyGet_eq_getD a _ (by omega) (by omega),
            pyGet_eq_getD b _ (by omega) (by omega),
            cutMinRight, if_neg him2, if_neg hjn2]
          have e1 : ((i : ℤ)).toNat = i := by omega
          have e2 : ((j : ℤ)).toNat = j := by omega
          rw [e1, e2]
    rw [hoptR]
    simp only []
    rw [medianOfSorted, hclen, if_neg hodd, ← hhdef, hgetL, hgetR]

theorem medianLoop_correct (a b : List ℚ) (ha : a.Sorted (· ≤ ·))
    (hb : b.Sorted (· ≤ ·)) (hmn : a.length ≤ b.length)
    (hpos : 0 < a.length + b.length) :
    ∀ (fuel : ℕ) (imin imax : ℤ), (imax + 1 - imin).toNat ≤ fuel →
    0 ≤ imin → imax ≤ (a.length : ℤ) →
    (∃ g : ℕ, imin ≤ (g : ℤ) ∧ (g : ℤ) ≤ imax ∧
      ¬ tooSmall a b ((a.length + b.length + 1) / 2) g ∧
      ¬ tooBig a b ((a.length + b.length + 1) / 2) g) →
    medianLoop a b (((a.length : ℤ) + b.length + 1) / 2) imin imax =
      PyResult.val (medianOfSorted (sortedMerge a b)) := by
  intro fuel
  induction fuel with
  | zero =>
    intro imin imax hfuel _ _ hex
    obtain ⟨g, hg1, hg2, _, _⟩ := hex
    omega
  | succ fuel ih =>
    intro imin imax hfuel himin himax hex
    obtain ⟨g, hg1, hg2, hgS, hgB⟩ := hex
    have hle : imin ≤ imax := by omega
    have hm1 : imin ≤ (imin + imax) / 2 ∧ (imin + imax) / 2 ≤ imax := by omega
    rw [medianLoop, if_pos hle]
    have hi : (((imin + imax) / 2).toNat : ℤ) = (imin + imax) / 2 := by omega
    have hzh : (((a.length + b.length + 1) / 2 : ℕ) : ℤ) =
        ((a.length : ℤ) + b.length + 1) / 2 := by
      rw [Int.ofNat_ediv]
      push_cast
      rfl
    have hmh : a.length ≤ (a.length + b.length + 1) / 2 := by omega
    have hhn : (a.length + b.length + 1) / 2 ≤ b.length := by omega
    have hh1 : 1 ≤ (a.length + b.length + 1) / 2 := by omega
    have him : ((imin + imax) / 2).toNat ≤ a.length := by omega
    have hc1 : cond1 a b ((imin + imax) / 2)
        (((a.length : ℤ) + b.length + 1) / 2 - (imin + imax) / 2) =
        some (decide (tooSmall a b ((a.length + b.length + 1) / 2)
          ((imin + imax) / 2).toNat)) := by
      rw [cond1]
      by_cases hiltm : ((imin + imax) / 2).toNat < a.length
      · rw [if_pos (by omega)]
        rw [pyGet_eq_getD b _ (by omega) (by omega),
          pyGet_eq_getD a _ (by omega) (by omega)]
        have e1 : (((a.length : ℤ) + b.length + 1) / 2 - (imin + imax) / 2 - 1).toNat =
            (a.length + b.length + 1) / 2 - ((imin + imax) / 2).toNat - 1 := by omega
        rw [e1]
        simp only []
        congr 1
        rw [decide_eq_decide]
        rw [tooSmall]
        constructor
        · intro hgt
          exact ⟨hiltm, hgt⟩
        · intro hand
          exact hand.2
      · rw [if_neg (by omega)]
        congr 1
        symm
        rw [decide_eq_false_iff_not]
        intro hts
        exact hiltm hts.1
    have hc2 : cond2 a b ((imin + imax) / 2)
        (((a.length : ℤ) + b.length + 1) / 2 - (imin + imax) / 2) =
        some (decide (tooBig a b ((a.length + b.length + 1) / 2)
          ((imin + imax) / 2).toNat)) := by
      rw [cond2]
      by_cases hipos : 0 < ((imin + imax) / 2).toNat
      · rw [if_pos (by omega)]
        rw [pyGet_eq_getD a _ (by omega) (by omega),
          pyGet_eq_getD b _ (by omega) (by omega)]
        have e1 : ((imin + imax) / 2 - 1).toNat = ((imin + imax) / 2).toNat - 1 := by
          omega
        have e2 : (((a.length : ℤ) + b.length + 1) / 2 - (imin + imax) / 2).toNat =
            (a.length + b.length + 1) / 2 - ((imin + imax) / 2).toNat := by omega
        rw [e1, e2]
        simp only []
        congr 1
        rw [decide_eq_decide]
        rw [tooBig]
        constructor
        · intro hgt
          exact ⟨hipos, hgt⟩
        · intro hand
          exact hand.2
      · rw [if_neg (by omega)]
        congr 1
        symm
        rw [decide_eq_false_iff_not]
        intro htb
        exact hipos htb.1
    rw [hc1]
    by_cases hts : tooSmall a b ((a.length + b.length + 1) / 2)
        ((imin + imax) / 2).toNat
    · rw [decide_eq_true hts]
      simp only []
      have hgi : ((imin + imax) / 2).toNat < g := by
        by_contra hc
        push_neg at hc
        exact hgS (tooSmall_downward a b ha hb _ hh1 hhn _ g hc hts)
      exact ih ((imin + imax) / 2 + 1) imax (by omega) (by omega) himax
        ⟨g, by omega, hg2, hgS, hgB⟩
    · rw [decide_eq_false hts]
      simp only []
      rw [hc2]
      by_cases htb : tooBig a b ((a.length + b.length + 1) / 2)
          ((imin + imax) / 2).toNat
      · rw [decide_eq_true htb]
        simp only []
        have hgm : g ≤ a.length := by omega
        have hgi : g < ((imin + imax) / 2).toNat := by
          by_contra hc
          push_neg at hc
          exact hgB (tooBig_upward a b ha hb _ hh1 hhn _ g hc hgm htb)
        exact ih imin ((imin + imax) / 2 - 1) (by omega) himin (by omega)
          ⟨g, hg1, by omega, hgS, hgB⟩
      · rw [decide_eq_false htb]
        simp only []
        have hme := medianElse_correct a b ha hb hmn hpos
          ((a.length + b.length + 1) / 2) (((imin + imax) / 2).toNat)
          ((a.length + b.length + 1) / 2 - ((imin + imax) / 2).toNat)
          rfl rfl him hts htb
        have e1 : (imin + imax) / 2 = ((((imin + imax) / 2).toNat : ℕ) : ℤ) := by
          omega
        have e2 : ((a.length : ℤ) + b.length + 1) / 2 - (imin + imax) / 2 =
            (((a.length + b.length + 1) / 2 - ((imin + imax) / 2).toNat : ℕ) : ℤ) := by
          omega
        rw [e2, e1]
        exact hme

theorem find_median_eq_spec (a b : List ℚ) (ha : a.Sorted (· ≤ ·))
    (hb : b.Sorted (· ≤ ·)) (hmn : a.length ≤ b.length)
    (hpos : 0 < a.length + b.length) :
    find_median_sorted_arrays a b =
      PyResult.val (medianOfSorted (sortedMerge a b)) := by
  rw [find_median_sorted_arrays, if_neg (by omega)]
  obtain ⟨g, hgm, hgS, hgB⟩ := exists_good_cut a b ((a.length + b.length + 1) / 2)
  exact medianLoop_correct a b ha hb hmn hpos (a.length + 1) 0 a.length
    (by omega) le_rfl le_rfl ⟨g, by omega, by omega, hgS, hgB⟩

/-- C7: `find_median_sorted_arrays` is symmetric in its two sorted inputs
when at least one is non-empty, and on two empty inputs it raises an
indexing error instead of returning a number. -/
theorem find_median_sorted_arrays_correct (a b : List ℚ)
    (ha : a.Sorted (· ≤ ·)) (hb : b.Sorted (· ≤ ·)) :
    ((a ≠ [] ∨ b ≠ []) →
      find_median_sorted_arrays a b = find_median_sorted_arrays b a) ∧
    (a = [] → b = [] → find_median_sorted_arrays a b = PyResult.indexError) := by
  constructor
  · intro hne
    rcases lt_trichotomy a.length b.length with hlt | heq | hgt
    · rw [find_median_sorted_arrays, find_median_sorted_arrays,
        if_neg (by omega), if_pos (by omega)]
    · have hposs : 0 < a.length + b.length := by
        rcases hne with h | h
        · have := List.length_pos.mpr h
          omega
        · have := List.length_pos.mpr h
          omega
      rw [find_median_eq_spec a b ha hb (by omega) hposs,
        find_median_eq_spec b a hb ha (by omega) (by omega)]
      have hmm : sortedMerge a b = sortedMerge b a := by
        apply List.eq_of_perm_of_sorted _ (sortedMerge_sorted a b)
          (sortedMerge_sorted b a)
        exact (sortedMerge_perm a b).trans
          (List.perm_append_comm.trans (sortedMerge_perm b a).symm)
      rw [hmm]
    · rw [find_median_sorted_arrays, find_median_sorted_arrays,
        if_pos (by omega), if_neg (by omega)]
  · intro hea heb
    subst hea
    subst heb
    rw [find_median_sorted_arrays, if_neg (by omega)]
    rw [medianLoop, if_pos (by norm_num)]
    norm_num [cond1, cond2, medianElse, pyGet]

theorem find_median_sorted_arrays_correct_witness :
    find_median_sorted_arrays [1, 3] [2] = find_median_sorted_arrays [2] [1, 3] :=
  (find_median_sorted_arrays_correct [1, 3] [2] (by norm_num) (by norm_num)).1
    (Or.inl (by simp))

/-! ## generate_response with caching (src/quasi_agent_improved.py)

```
options = {model, max_tokens, temperature, top_p, n, presence_penalty, frequency_penalty}
cache_key = None
if cache_dir:
    cache_key = make_cache_key(messages, options)
    cached_value = read_cache(cache_dir, cache_key)
    if cached_value is not None:
        return cached_value
attempt = 0
while True:
    attempt += 1
    try:
        raw_resp = completion(**llm_kwargs)
        text = raw_resp.choices[0].message.content
        if cache_dir and cache_key:
            write_cache(cache_dir, cache_key, text)
        return text
    except RateLimitError:
        if attempt >= retries: raise
        time.sleep(base_sleep * (2 ** (attempt - 1)))
```

External pieces are parameters: `hashFn` stands for `make_cache_key`
(SHA-256 of the canonical JSON of messages and options — a pure function of
its two arguments), the completion service is an outcome oracle per
attempt, and the cache directory on disk is a map from file path to file
content. A run returns the result, the updated filesystem, and how many
real completion calls were made. `time.sleep` has no modelled effect. -/

structure GenOptions : Type where
  model : String
  max_tokens : ℤ
  temperature : ℚ
  top_p : ℚ
  n : ℤ
  presence_penalty : Option ℚ
  frequency_penalty : Option ℚ
deriving DecidableEq

def read_cache (fs : String → Option String) (cache_dir key : String) :
    Option String :=
  fs (cache_dir ++ "/" ++ key)

def write_cache (fs : String → Option String) (cache_dir key value : String) :
    String → Option String :=
  fun p => if p = cache_dir ++ "/" ++ key then some value else fs p

/-- Python truthiness of an `Optional[str]`: `None` and `""` are falsy. -/
def pyTruthyStr : Option String → Bool
  | none => false
  | some s => s ≠ ""

def generate_responseLoop (oracle : ℕ → CallOutcome)
    (fs : String → Option String) (cache_dir cache_key : Option String)
    (retries : ℤ) (attempt calls : ℕ) :
    RetryResult × (String → Option String) × ℕ :=
  match oracle attempt with
  | .success text =>
    if pyTruthyStr cache_dir && pyTruthyStr cache_key then
      (.ok text, write_cache fs (cache_dir.getD "") (cache_key.getD "") text,
        calls + 1)
    else (.ok text, fs, calls + 1)
  | .rateLimit =>
    if ((attempt : ℤ) + 1) ≥ retries then (.raisedRateLimit, fs, calls + 1)
    else generate_responseLoop oracle fs cache_dir cache_key retries
      (attempt + 1) (calls + 1)
  | .otherError => (.raisedOther, fs, calls + 1)
termination_by (retries - attempt).toNat
decreasing_by omega

def generate_response
    (hashFn : List (String × String) → GenOptions → String)
    (oracle : ℕ → CallOutcome) (messages : List (String × String))
    (opts : GenOptions) (retries : ℤ) (cache_dir : Option String)
    (fs : String → Option String) :
    RetryResult × (String → Option String) × ℕ :=
  if pyTruthyStr cache_dir then
    match read_cache fs (cache_dir.getD "") (hashFn messages opts) with
    | some cached => (.ok cached, fs, 0)
    | none =>
      generate_responseLoop oracle fs cache_dir (some (hashFn messages opts))
        retries 0 0
  else generate_responseLoop oracle fs cache_dir none retries 0 0

/-- C2: with a cache directory configured and an initially missing entry,
issuing the same messages and options twice makes exactly one real
completion call on the first issue, zero on the second (at most one in
total), and the second call returns exactly the text the first returned. -/
theorem generate_response_cache_idempotent
    (hashFn : List (String × String) → GenOptions → String)
    (oracle1 oracle2 : ℕ → CallOutcome)
    (messages : List (String × String)) (opts : GenOptions)
    (retries : ℤ) (d : String) (fs0 : String → Option String) (t : String)
    (hd : d ≠ "") (hk : hashFn messages opts ≠ "")
    (hmiss : fs0 (d ++ "/" ++ hashFn messages opts) = none)
    (hfirst : oracle1 0 = CallOutcome.success t) :
    (generate_response hashFn oracle1 messages opts retries (some d) fs0).1 =
        RetryResult.ok t ∧
    (generate_response hashFn oracle1 messages opts retries (some d) fs0).2.2 = 1 ∧
    (generate_response hashFn oracle2 messages opts retries (some d)
        (generate_response hashFn oracle1 messages opts retries (some d) fs0).2.1).1 =
        RetryResult.ok t ∧
    (generate_response hashFn oracle2 messages opts retries (some d)
        (generate_response hashFn oracle1 messages opts retries (some d) fs0).2.1).2.2 =
        0 := by
  have htrue : pyTruthyStr (some d) = true := by
    simp [pyTruthyStr, hd]
  have hr1 : generate_response hashFn oracle1 messages opts retries (some d) fs0 =
      (RetryResult.ok t, write_cache fs0 d (hashFn messages opts) t, 1) := by
    rw [generate_response, if_pos htrue]
    have hrc : read_cache fs0 ((some d).getD "") (hashFn messages opts) = none :=
      hmiss
    rw [hrc]
    simp only []
    rw [generate_responseLoop, hfirst]
    simp only []
    rw [if_pos (by simp [pyTruthyStr, hd, hk])]
    rfl
  have hr2 : generate_response hashFn oracle2 messages opts retries (some d)
      (write_cache fs0 d (hashFn messages opts) t) =
      (RetryResult.ok t, write_cache fs0 d (hashFn messages opts) t, 0) := by
    rw [generate_response, if_pos htrue]
    have hrc : read_cache (write_cache fs0 d (hashFn messages opts) t)
        ((some d).getD "") (hashFn messages opts) = some t := by
      rw [read_cache, write_cache]
      simp
    rw [hrc]
  rw [hr1, hr2]
  exact ⟨rfl, rfl, rfl, rfl⟩

theorem generate_response_cache_idempotent_witness :
    (generate_response (fun _ _ => "k") (fun _ => CallOutcome.success "hello")
      [("user", "hi")] ⟨"m", 100, 0, 1, 1, none, none⟩ 3 (some "cache")
      (fun _ => none)).1 = RetryResult.ok "hello" :=
  (generate_response_cache_idempotent (fun _ _ => "k")
    (fun _ => CallOutcome.success "hello") (fun _ => CallOutcome.success "x")
    [("user", "hi")] ⟨"m", 100, 0, 1, 1, none, none⟩ 3 "cache" (fun _ => none)
    "hello" (by decide) (by decide) rfl rfl).1

/-! ## parse_action / extract_markdown_block (src/agent_tools_improved.py)

```
def extract_markdown_block(response, block_type="json"):
    if '```' not in response: return response.strip()
    parts = response.split('```')
    if len(parts) < 2: return response.strip()
    code_block = parts[1].strip()
    if code_block.lower().startswith(block_type):
        code_block = code_block[len(block_type):].strip()
    return code_block

def parse_action(response, verbose=False):
    try:
        action_text = extract_markdown_block(response, "action")
        action_json = safe_json_parse(action_text)
        if not action_json:
            return {"tool_name": "error", "args": {"message": "Failed to parse action JSON"}}
        if "tool_name" not in action_json or "args" not in action_json:
            return {"tool_name": "error", "args": {"message": "Action must contain ..."}}
        return action_json
    except Exception as e:
        return {"tool_name": "error", "args": {"message": f"Error parsing action: ..."}}
```

Python strings are `List Char`. `splitFence` is `str.split('```')`
(left-to-right, non-overlapping); `pyStrip` is `str.strip()` (whitespace
per `Char.isWhitespace`). JSON values are `JValue`; `json.loads` is an
oracle parameter `jsonParse` (returning `none` on a parse error, which
`safe_json_parse` turns into `None`). Python truthiness of a JSON value is
`jFalsy`; Python `in` on a JSON value is `pyMembership` (`none` encodes the
`TypeError` raised on non-container values, which the `except` catches). -/

def fence : List Char := "```".toList

def splitFenceAux : List Char → List Char → List (List Char)
  | c1 :: c2 :: c3 :: rest, acc =>
    if [c1, c2, c3] = fence then acc.reverse :: splitFenceAux rest []
    else splitFenceAux (c2 :: c3 :: rest) (c1 :: acc)
  | c :: rest, acc => splitFenceAux rest (c :: acc)
  | [], acc => [acc.reverse]

def splitFence (s : List Char) : List (List Char) := splitFenceAux s []

def pyStrip (s : List Char) : List Char :=
  ((s.dropWhile Char.isWhitespace).reverse.dropWhile Char.isWhitespace).reverse

def isSubstring : List Char → List Char → Bool
  | needle, [] => needle.isEmpty
  | needle, c :: rest => needle.isPrefixOf (c :: rest) || isSubstring needle rest

def extract_markdown_block (response blockType : List Char) : List Char :=
  match splitFence response with
  | _ :: second :: _ =>
    let code_block := pyStrip second
    if blockType.isPrefixOf (code_block.map Char.toLower) then
      pyStrip (code_block.drop blockType.length)
    else code_block
  | _ => pyStrip response

inductive JValue : Type
  | null
  | bool (b : Bool)
  | num (q : ℚ)
  | str (s : List Char)
  | arr (elems : List JValue)
  | obj (fields : List (List Char × JValue))

/-- Python truthiness of a JSON value (`not action_json`). -/
def jFalsy : JValue → Bool
  | .null => true
  | .bool b => !b
  | .num q => q = 0
  | .str s => s.isEmpty
  | .arr l => l.isEmpty
  | .obj f => f.isEmpty

/-- Python `needle in v` for a JSON value: substring test on strings,
element equality on arrays, key membership on objects; `none` is the
`TypeError` raised for non-container values. -/
def pyMembership (v : JValue) (needle : List Char) : Option Bool :=
  match v with
  | .str s => some (isSubstring needle s)
  | .arr l => some (l.any (fun e =>
      match e with
      | .str t => t = needle
      | _ => false))
  | .obj f => some (f.any (fun kv => kv.1 = needle))
  | _ => none

def errorAction (msg : List Char) : JValue :=
  .obj [("tool_name".toList, .str ("error".toList)),
        ("args".toList, .obj [("message".toList, .str msg)])]

def parse_action (jsonParse : List Char → Option JValue)
    (response : List Char) : JValue :=
  let action_text := extract_markdown_block response ("action".toList)
  match jsonParse action_text with
  | none => errorAction ("Failed to parse action JSON".toList)
  | some aj =>
    if jFalsy aj then errorAction ("Failed to parse action JSON".toList)
    else
      match pyMembership aj ("tool_name".toList) with
      | none => errorAction ("Error parsing action".toList)
      | some tn =>
        if !tn then
          errorAction ("Action must contain tool_name and args fields".toList)
        else
          match pyMembership aj ("args".toList) with
          | none => errorAction ("Error parsing action".toList)
          | some ag =>
            if !ag then
              errorAction ("Action must contain tool_name and args fields".toList)
            else aj

/-- Rebuilding a fence-split: the inverse of `splitFence`. -/
def joinFence : List (List Char) → List Char
  | [] => []
  | [x] => x
  | x :: y :: t => x ++ fence ++ joinFence (y :: t)

theorem splitFenceAux_ne_nil : ∀ (s acc : List Char), splitFenceAux s acc ≠ [] := by
  intro s acc
  induction s, acc using splitFenceAux.induct with
  | case1 c1 c2 c3 rest acc h ih => simp [splitFenceAux, h]
  | case2 c1 c2 c3 rest acc h ih =>
    rw [splitFenceAux, if_neg h]
    exact ih
  | case3 c rest acc h ih =>
    rcases rest with _ | ⟨c2, rest2⟩
    · simp [splitFenceAux]
    · rcases rest2 with _ | ⟨c3, rest3⟩
      · rw [show splitFenceAux [c, c2] acc = splitFenceAux [c2] (c :: acc) from rfl]
        exact ih
      · exact absurd rfl (by intro hc; exact h c2 c3 rest3 hc)
  | case4 acc => simp [splitFenceAux]

theorem splitFenceAux_join : ∀ (s acc : List Char),
    joinFence (splitFenceAux s acc) = acc.reverse ++ s := by
  intro s acc
  induction s, acc using splitFenceAux.induct with
  | case1 c1 c2 c3 rest acc h ih =>
    rw [splitFenceAux, if_pos h]
    obtain ⟨y, t, he⟩ := List.exists_cons_of_ne_nil (splitFenceAux_ne_nil rest [])
    rw [he]
    rw [he] at ih
    simp only [List.reverse_nil, List.nil_append] at ih
    rw [joinFence, ih, ← h]
    simp
  | case2 c1 c2 c3 rest acc h ih =>
    rw [splitFenceAux, if_neg h]
    rw [ih]
    simp
  | case3 c rest acc h ih =>
    rcases rest with _ | ⟨c2, rest2⟩
    · simp [splitFenceAux, joinFence]
    · rcases rest2 with _ | ⟨c3, rest3⟩
      · rw [show splitFenceAux [c, c2] acc = splitFenceAux [c2] (c :: acc) from rfl]
        rw [ih]
        simp
      · exact absurd rfl (by intro hc; exact h c2 c3 rest3 hc)
  | case4 acc => simp [splitFenceAux, joinFence]

theorem splitFenceAux_no_fence : ∀ (s acc : List Char),
    isSubstring fence s = false → splitFenceAux s acc = [acc.reverse ++ s] := by
  intro s acc
  induction s, acc using splitFenceAux.induct with
  | case1 c1 c2 c3 rest acc h ih =>
    intro hno
    rw [isSubstring] at hno
    simp only [Bool.or_eq_false_iff] at hno
    exfalso
    have hpre : fence.isPrefixOf (c1 :: c2 :: c3 :: rest) = true := by
      rw [← h]
      simp [List.isPrefixOf]
    rw [hpre] at hno
    exact absurd hno.1 (by simp)
  | case2 c1 c2 c3 rest acc h ih =>
    intro hno
    rw [isSubstring] at hno
    simp only [Bool.or_eq_false_iff] at hno
    rw [splitFenceAux, if_neg h, ih hno.2]
    simp
  | case3 c rest acc h ih =>
    intro hno
    rw [isSubstring] at hno
    simp only [Bool.or_eq_false_iff] at hno
    rcases rest with _ | ⟨c2, rest2⟩
    · simp [splitFenceAux]
    · rcases rest2 with _ | ⟨c3, rest3⟩
      · rw [show splitFenceAux [c, c2] acc = splitFenceAux [c2] (c :: acc) from rfl]
        rw [ih hno.2]
        simp
      · exact absurd rfl (by intro hc; exact h c2 c3 rest3 hc)
  | case4 acc =>
    intro _
    simp [splitFenceAux]

theorem parse_action_eval (jsonParse : List Char → Option JValue)
    (response : List Char) (aj : JValue)
    (hj : jsonParse (extract_markdown_block response ("action".toList)) = some aj)
    (hf : jFalsy aj = false) :
    parse_action jsonParse response =
      (match pyMembership aj ("tool_name".toList) with
       | none => errorAction ("Error parsing action".toList)
       | some tn =>
         if !tn then
           errorAction ("Action must contain tool_name and args fields".toList)
         else
           match pyMembership aj ("args".toList) with
           | none => errorAction ("Error parsing action".toList)
           | some ag =>
             if !ag then
               errorAction ("Action must contain tool_name and args fields".toList)
             else aj) := by
  simp only [parse_action]
  rw [hj]
  simp only []
  rw [if_neg (by rw [hf]; simp)]

theorem parse_action_falsy (jsonParse : List Char → Option JValue)
    (response : List Char) (aj : JValue)
    (hj : jsonParse (extract_markdown_block response ("action".toList)) = some aj)
    (hf : jFalsy aj = true) :
    parse_action jsonParse response =
      errorAction ("Failed to parse action JSON".toList) := by
  simp only [parse_action]
  rw [hj]
  simp only []
  rw [if_pos hf]

/-- C8 (amended): the parser never raises and its result always passes the
Python membership checks for tool_name and args: it is either the
synthesized error pseudo-call (itself a mapping with both keys) or the
parsed JSON value accepted by both checks — which is a mapping whenever the
parsed JSON is an object, but a truthy string or array containing both keys
(as substrings / elements) is returned unchanged. The first fenced block is
used (the split parts rebuild the response), the whole stripped response is
used when no fence is present, and invalid JSON or an object missing either
key yields the error pseudo-call. -/
theorem parse_action_correct :
    ∀ (jsonParse : List Char → Option JValue) (response : List Char),
    ((∃ msg, parse_action jsonParse response = errorAction msg) ∨
      (jsonParse (extract_markdown_block response ("action".toList)) =
          some (parse_action jsonParse response) ∧
        jFalsy (parse_action jsonParse response) = false ∧
        pyMembership (parse_action jsonParse response) ("tool_name".toList) =
          some true ∧
        pyMembership (parse_action jsonParse response) ("args".toList) =
          some true)) ∧
    (∀ msg, pyMembership (errorAction msg) ("tool_name".toList) = some true ∧
      pyMembership (errorAction msg) ("args".toList) = some true) ∧
    (isSubstring fence response = false →
      extract_markdown_block response ("action".toList) = pyStrip response) ∧
    joinFence (splitFence response) = response ∧
    (jsonParse (extract_markdown_block response ("action".toList)) = none →
      parse_action jsonParse response =
        errorAction ("Failed to parse action JSON".toList)) ∧
    (∀ fields, jsonParse (extract_markdown_block response ("action".toList)) =
        some (JValue.obj fields) →
      (fields.any (fun kv => kv.1 = ("tool_name".toList)) = false ∨
        fields.any (fun kv => kv.1 = ("args".toList)) = false) →
      ∃ msg, parse_action jsonParse response = errorAction msg) := by
  intro jsonParse response
  have hnone : jsonParse (extract_markdown_block response ("action".toList)) = none →
      parse_action jsonParse response =
        errorAction ("Failed to parse action JSON".toList) := by
    intro hj
    simp only [parse_action]
    rw [hj]
  refine ⟨?_, ?_, ?_, ?_, hnone, ?_⟩
  · cases hj : jsonParse (extract_markdown_block response ("action".toList)) with
    | none => exact Or.inl ⟨_, hnone hj⟩
    | some aj =>
      by_cases hf : jFalsy aj = true
      · exact Or.inl ⟨_, parse_action_falsy jsonParse response aj hj hf⟩
      · rw [Bool.not_eq_true] at hf
        have heval := parse_action_eval jsonParse response aj hj hf
        cases htn : pyMembership aj ("tool_name".toList) with
        | none =>
          rw [htn] at heval
          exact Or.inl ⟨_, heval⟩
        | some tn =>
          rw [htn] at heval
          simp only [] at heval
          cases tn with
          | false =>
            simp at heval
            exact Or.inl ⟨_, heval⟩
          | true =>
            simp only [Bool.not_true, Bool.false_eq_true, if_false] at heval
            cases hag : pyMembership aj ("args".toList) with
            | none =>
              rw [hag] at heval
              exact Or.inl ⟨_, heval⟩
            | some ag =>
              rw [hag] at heval
              simp only [] at heval
              cases ag with
              | false =>
                simp at heval
                exact Or.inl ⟨_, heval⟩
              | true =>
                simp only [Bool.not_true, Bool.false_eq_true, if_false] at heval
                refine Or.inr ⟨?_, ?_, ?_, ?_⟩
                · rw [heval]
                · rw [heval]
                  exact hf
                · rw [heval]
                  exact htn
                · rw [heval]
                  exact hag
  · intro msg
    constructor
    · simp [pyMembership, errorAction]
    · simp [pyMembership, errorAction]
  · intro hno
    have hs := splitFenceAux_no_fence response [] hno
    rw [extract_markdown_block]
    rw [show splitFence response = splitFenceAux response [] from rfl, hs]
  · have := splitFenceAux_join response []
    simpa [splitFence] using this
  · intro fields hj hmiss
    by_cases hfe : fields.isEmpty
    · refine ⟨_, parse_action_falsy jsonParse response _ hj ?_⟩
      simp only [jFalsy]
      exact hfe
    · have hff : jFalsy (JValue.obj fields) = false := by
        simp only [jFalsy]
        simpa using hfe
      rw [parse_action_eval jsonParse response _ hj hff]
      have htn : pyMembership (JValue.obj fields) ("tool_name".toList) =
          some (fields.any (fun kv => kv.1 = ("tool_name".toList))) := rfl
      have hag : pyMembership (JValue.obj fields) ("args".toList) =
          some (fields.any (fun kv => kv.1 = ("args".toList))) := rfl
      rcases hmiss with hm | hm
      · rw [htn, hm]
        exact ⟨_, rfl⟩
      · rw [htn]
        cases hv : fields.any (fun kv => kv.1 = ("tool_name".toList)) with
        | false => exact ⟨_, rfl⟩
        | true =>
          simp only [Bool.not_true, Bool.false_eq_true, if_false]
          rw [hag, hm]
          exact ⟨_, rfl⟩

/-- C8 counterexample: the claim says the result is always a mapping with
tool_name and args keys, but on the response `"tool_name args"` — a valid
JSON string literal whose value contains both key names as substrings —
`parse_action` returns that string, not a mapping. (`json.loads` on this
text yields the Python `str`, and Python `in` on a `str` is a substring
test, so both membership checks pass and the string is returned as-is.) -/
theorem parse_action_not_mapping_counterexample :
    parse_action
        (fun s => if s = ("\"tool_name args\"".toList)
          then some (JValue.str ("tool_name args".toList)) else none)
        ("\"tool_name args\"".toList) =
      JValue.str ("tool_name args".toList) ∧
    ∀ fields, JValue.str ("tool_name args".toList) ≠ JValue.obj fields := by
  constructor
  · rfl
  · intro fields h
    exact JValue.noConfusion h

/-!
## C4: `run_agent` (src/agent_tools_improved.py, lines 411-563)

The LLM call (`generate_response`), the filesystem tools behind `TOOLS`
(together with the `try` block of `execute_tool` that invokes them and
converts raised exceptions to error dicts), Python string formatting of
arbitrary values, and `json.dumps` are external effects, passed as
parameters (`llm`, `toolExec`, `pyFormat`, `jsonDumps`).  A Python
exception that escapes `run_agent` is `Except.error`.
-/

inductive PyErr where
  | keyError : List Char → PyErr
  | typeError : PyErr
  | attributeError : PyErr

/-- Python subscript `v[key]` with a string key: dict lookup (last
binding wins, `KeyError` when absent), `TypeError` on any non-dict. -/
def pySubscript (v : JValue) (key : List Char) : Except PyErr JValue :=
  match v with
  | JValue.obj fields =>
      match fields.reverse.find? (fun kv => decide (kv.1 = key)) with
      | some kv => Except.ok kv.2
      | none => Except.error (PyErr.keyError key)
  | _ => Except.error PyErr.typeError

/-- Python `v.get(key, default)`: dict lookup with default,
`AttributeError` when `v` is not a dict. -/
def dictGet (v : JValue) (key : List Char) (default : JValue) :
    Except PyErr JValue :=
  match v with
  | JValue.obj fields =>
      match fields.reverse.find? (fun kv => decide (kv.1 = key)) with
      | some kv => Except.ok kv.2
      | none => Except.ok default
  | _ => Except.error PyErr.attributeError

/-- Python `v == s` for a string literal `s`: true only for an equal
string, false for every other value. -/
def jEqStr (v : JValue) (s : List Char) : Bool :=
  match v with
  | JValue.str t => decide (t = s)
  | _ => false

/-- Keys of the `TOOLS` dict (line 284). -/
def TOOLS_names : List (List Char) :=
  ["list_files".toList, "read_file".toList, "write_file".toList,
   "search_files".toList]

/-- `execute_tool` (lines 411-444).  `toolExec tn args` stands for the
whole `try` block for a tool `tn` that is a key of `TOOLS`: calling
`TOOLS[tn](**args)` and turning any raised exception into an error dict.
`pyFormat` is Python `str()` as used by the f-string on line 430.
A dict or list `tool_name` is unhashable, so `tool_name not in TOOLS`
raises `TypeError`. -/
def execute_tool (toolExec : List Char → JValue → JValue)
    (pyFormat : JValue → List Char)
    (tool_name : JValue) (args : JValue) : Except PyErr JValue :=
  if jEqStr tool_name ("terminate".toList) then
    Except.ok (JValue.obj
      [("result".toList, JValue.str ("Agent terminated".toList)),
       ("terminate".toList, JValue.bool true)])
  else if jEqStr tool_name ("error".toList) then
    match dictGet args ("message".toList)
        (JValue.str ("Unknown error".toList)) with
    | Except.ok m => Except.ok (JValue.obj [("error".toList, m)])
    | Except.error e => Except.error e
  else
    match tool_name with
    | JValue.arr _ => Except.error PyErr.typeError
    | JValue.obj _ => Except.error PyErr.typeError
    | JValue.str tn =>
        if TOOLS_names.contains tn then Except.ok (toolExec tn args)
        else Except.ok (JValue.obj [("error".toList,
          JValue.str (("Unknown tool: ".toList) ++ pyFormat tool_name))])
    | _ => Except.ok (JValue.obj [("error".toList,
          JValue.str (("Unknown tool: ".toList) ++ pyFormat tool_name))])

/-- The `while iteration < max_iterations` loop of `run_agent`
(lines 489-563), entered with the given `memory` and `iteration`.
`llm memory` is `generate_response(memory, ...)`; `none` models a raised
exception (caught on line 499). -/
def run_agentLoop (llm : List (List Char × List Char) → Option (List Char))
    (jsonParse : List Char → Option JValue)
    (toolExec : List Char → JValue → JValue)
    (pyFormat : JValue → List Char)
    (jsonDumps : JValue → List Char)
    (max_iterations : ℤ)
    (memory : List (List Char × List Char)) (iteration : ℤ) :
    Except PyErr JValue :=
  if _h : iteration < max_iterations then
    match llm memory with
    | none => Except.ok (JValue.str ("Agent failed due to LLM error".toList))
    | some response =>
      match pySubscript (parse_action jsonParse response)
          ("tool_name".toList) with
      | Except.error e => Except.error e
      | Except.ok tool_name =>
        match pySubscript (parse_action jsonParse response)
            ("args".toList) with
        | Except.error e => Except.error e
        | Except.ok tool_args =>
          match execute_tool toolExec pyFormat tool_name tool_args with
          | Except.error e => Except.error e
          | Except.ok result =>
            if jEqStr tool_name ("terminate".toList) then
              dictGet tool_args ("message".toList)
                (JValue.str ("Task completed".toList))
            else
              if iteration + 1 ≥ max_iterations then
                Except.ok (JValue.str
                  ("Agent reached maximum iterations without completing task".toList))
              else
                run_agentLoop llm jsonParse toolExec pyFormat jsonDumps
                  max_iterations
                  (memory ++ [("assistant".toList, response),
                              ("user".toList, jsonDumps result)])
                  (iteration + 1)
  else
    Except.ok (JValue.str ("Agent loop completed".toList))
termination_by (max_iterations - iteration).toNat
decreasing_by omega

/-- `run_agent` (lines 447-563): seeds the memory with the system prompt
and the task, then runs the loop from `iteration = 0`. -/
def run_agent (llm : List (List Char × List Char) → Option (List Char))
    (jsonParse : List Char → Option JValue)
    (toolExec : List Char → JValue → JValue)
    (pyFormat : JValue → List Char)
    (jsonDumps : JValue → List Char)
    (system_prompt task : List Char) (max_iterations : ℤ) :
    Except PyErr JValue :=
  run_agentLoop llm jsonParse toolExec pyFormat jsonDumps max_iterations
    [("system".toList, system_prompt), ("user".toList, task)] 0

/-- A model whose responses are a scripted sequence: the response to the
`i`-th `generate_response` call.  The memory holds `2 + 2*i` entries when
call `i` is made, so the call index is recovered from its length. -/
def scriptedLLM (script : ℕ → List Char) :
    List (List Char × List Char) → Option (List Char) :=
  fun memory => some (script ((memory.length - 2) / 2))

theorem execute_tool_plain (toolExec : List Char → JValue → JValue)
    (pyFormat : JValue → List Char) (tn : List Char) (tool_args : JValue)
    (hterm : tn ≠ ("terminate".toList)) (herr : tn ≠ ("error".toList)) :
    ∃ r, execute_tool toolExec pyFormat (JValue.str tn) tool_args =
      Except.ok r := by
  simp only [execute_tool]
  rw [if_neg (by simp only [jEqStr]; exact (by simpa using hterm))]
  rw [if_neg (by simp only [jEqStr]; exact (by simpa using herr))]
  by_cases hc : TOOLS_names.contains tn = true
  · rw [if_pos hc]
    exact ⟨_, rfl⟩
  · rw [if_neg hc]
    exact ⟨_, rfl⟩

theorem run_agentLoop_step
    (llm : List (List Char × List Char) → Option (List Char))
    (jsonParse : List Char → Option JValue)
    (toolExec : List Char → JValue → JValue)
    (pyFormat : JValue → List Char) (jsonDumps : JValue → List Char)
    (max_iterations : ℤ) (memory : List (List Char × List Char))
    (iteration : ℤ) (response tn : List Char) (tool_args : JValue)
    (hi : iteration < max_iterations)
    (hr : llm memory = some response)
    (htn : pySubscript (parse_action jsonParse response) ("tool_name".toList) =
      Except.ok (JValue.str tn))
    (hterm : tn ≠ ("terminate".toList)) (herr : tn ≠ ("error".toList))
    (hag : pySubscript (parse_action jsonParse response) ("args".toList) =
      Except.ok tool_args) :
    ∃ r, run_agentLoop llm jsonParse toolExec pyFormat jsonDumps
        max_iterations memory iteration =
      if iteration + 1 ≥ max_iterations then
        Except.ok (JValue.str
          ("Agent reached maximum iterations without completing task".toList))
      else
        run_agentLoop llm jsonParse toolExec pyFormat jsonDumps max_iterations
          (memory ++ [("assistant".toList, response),
                      ("user".toList, jsonDumps r)])
          (iteration + 1) := by
  obtain ⟨r, hexec⟩ :=
    execute_tool_plain toolExec pyFormat tn tool_args hterm herr
  refine ⟨r, ?_⟩
  rw [run_agentLoop]
  rw [dif_pos hi]
  rw [hr]
  simp only []
  rw [htn]
  simp only []
  rw [hag]
  simp only []
  rw [hexec]
  simp only []
  rw [if_neg (by simp only [jEqStr]; exact (by simpa using hterm))]

theorem run_agentLoop_terminate
    (llm : List (List Char × List Char) → Option (List Char))
    (jsonParse : List Char → Option JValue)
    (toolExec : List Char → JValue → JValue)
    (pyFormat : JValue → List Char) (jsonDumps : JValue → List Char)
    (max_iterations : ℤ) (memory : List (List Char × List Char))
    (iteration : ℤ) (response : List Char) (tool_args : JValue)
    (hi : iteration < max_iterations)
    (hr : llm memory = some response)
    (htn : pySubscript (parse_action jsonParse response) ("tool_name".toList) =
      Except.ok (JValue.str ("terminate".toList)))
    (hag : pySubscript (parse_action jsonParse response) ("args".toList) =
      Except.ok tool_args) :
    run_agentLoop llm jsonParse toolExec pyFormat jsonDumps
        max_iterations memory iteration =
      dictGet tool_args ("message".toList)
        (JValue.str ("Task completed".toList)) := by
  have hexec : execute_tool toolExec pyFormat
      (JValue.str ("terminate".toList)) tool_args =
      Except.ok (JValue.obj
        [("result".toList, JValue.str ("Agent terminated".toList)),
         ("terminate".toList, JValue.bool true)]) := by
    simp only [execute_tool]
    rw [if_pos (by simp [jEqStr])]
  rw [run_agentLoop]
  rw [dif_pos hi]
  rw [hr]
  simp only []
  rw [htn]
  simp only []
  rw [hag]
  simp only []
  rw [hexec]
  simp only []
  rw [if_pos (by simp [jEqStr])]

theorem scriptedLLM_eval (script : ℕ → List Char)
    (memory : List (List Char × List Char)) (i : ℕ)
    (h : memory.length = 2 + 2 * i) :
    scriptedLLM script memory = some (script i) := by
  simp only [scriptedLLM, h]
  have hx : (2 + 2 * i - 2) / 2 = i := by omega
  rw [hx]

/-- A scripted response whose parsed action carries a string tool name
other than `terminate` or `error`, and some `args` value. -/
def plainToolStep (jsonParse : List Char → Option JValue)
    (response : List Char) : Prop :=
  ∃ tn tool_args,
    pySubscript (parse_action jsonParse response) ("tool_name".toList) =
      Except.ok (JValue.str tn) ∧
    tn ≠ ("terminate".toList) ∧ tn ≠ ("error".toList) ∧
    pySubscript (parse_action jsonParse response) ("args".toList) =
      Except.ok tool_args

/-- A scripted response whose parsed action invokes `terminate`, with
`args.get("message", "Task completed")` yielding `msg`. -/
def terminateStep (jsonParse : List Char → Option JValue)
    (response : List Char) (msg : JValue) : Prop :=
  ∃ tool_args,
    pySubscript (parse_action jsonParse response) ("tool_name".toList) =
      Except.ok (JValue.str ("terminate".toList)) ∧
    pySubscript (parse_action jsonParse response) ("args".toList) =
      Except.ok tool_args ∧
    dictGet tool_args ("message".toList)
      (JValue.str ("Task completed".toList)) = Except.ok msg

theorem run_agentLoop_exhaust (script : ℕ → List Char)
    (jsonParse : List Char → Option JValue)
    (toolExec : List Char → JValue → JValue)
    (pyFormat : JValue → List Char) (jsonDumps : JValue → List Char)
    (max_iterations : ℤ)
    (hscript : ∀ i, plainToolStep jsonParse (script i)) :
    ∀ (fuel : ℕ) (memory : List (List Char × List Char)) (iteration : ℤ),
      memory.length = 2 + 2 * iteration.toNat →
      0 ≤ iteration → iteration < max_iterations →
      fuel = (max_iterations - iteration).toNat →
      run_agentLoop (scriptedLLM script) jsonParse toolExec pyFormat
          jsonDumps max_iterations memory iteration =
        Except.ok (JValue.str
          ("Agent reached maximum iterations without completing task".toList)) := by
  intro fuel
  induction fuel using Nat.strong_induction_on with
  | _ fuel ih =>
    intro memory iteration hlen h0 hlt hfuel
    obtain ⟨tn, tool_args, htn, hterm, herr, hag⟩ := hscript iteration.toNat
    have hr := scriptedLLM_eval script memory iteration.toNat hlen
    obtain ⟨r, hstep⟩ := run_agentLoop_step (scriptedLLM script) jsonParse
      toolExec pyFormat jsonDumps max_iterations memory iteration
      (script iteration.toNat) tn tool_args hlt hr htn hterm herr hag
    rw [hstep]
    by_cases hend : iteration + 1 ≥ max_iterations
    · rw [if_pos hend]
    · rw [if_neg hend]
      push_neg at hend
      have hlap : (memory ++ [("assistant".toList, script iteration.toNat),
          ("user".toList, jsonDumps r)]).length = memory.length + 2 := by
        simp
      exact ih ((max_iterations - (iteration + 1)).toNat) (by omega) _
        (iteration + 1) (by omega) (by omega) (by omega) rfl

theorem run_agentLoop_reaches_terminate (script : ℕ → List Char)
    (jsonParse : List Char → Option JValue)
    (toolExec : List Char → JValue → JValue)
    (pyFormat : JValue → List Char) (jsonDumps : JValue → List Char)
    (max_iterations : ℤ) (k : ℕ) (msg : JValue)
    (hpre : ∀ i < k, plainToolStep jsonParse (script i))
    (hterm : terminateStep jsonParse (script k) msg)
    (hk : (k : ℤ) < max_iterations) :
    ∀ (fuel : ℕ) (memory : List (List Char × List Char)) (iteration : ℤ),
      memory.length = 2 + 2 * iteration.toNat →
      0 ≤ iteration → iteration.toNat ≤ k →
      fuel = k - iteration.toNat →
      run_agentLoop (scriptedLLM script) jsonParse toolExec pyFormat
          jsonDumps max_iterations memory iteration = Except.ok msg := by
  intro fuel
  induction fuel using Nat.strong_induction_on with
  | _ fuel ih =>
    intro memory iteration hlen h0 hle hfuel
    have hr := scriptedLLM_eval script memory iteration.toNat hlen
    by_cases hkk : iteration.toNat = k
    · obtain ⟨tool_args, htn, hag, hmsg⟩ := hterm
      rw [hkk] at hr
      rw [run_agentLoop_terminate (scriptedLLM script) jsonParse toolExec
        pyFormat jsonDumps max_iterations memory iteration (script k)
        tool_args (by omega) hr htn hag]
      exact hmsg
    · obtain ⟨tn, tool_args, htn, hterm2, herr, hag⟩ :=
        hpre iteration.toNat (by omega)
      obtain ⟨r, hstep⟩ := run_agentLoop_step (scriptedLLM script) jsonParse
        toolExec pyFormat jsonDumps max_iterations memory iteration
        (script iteration.toNat) tn tool_args (by omega) hr htn hterm2 herr hag
      rw [hstep]
      rw [if_neg (by omega)]
      have hlap : (memory ++ [("assistant".toList, script iteration.toNat),
          ("user".toList, jsonDumps r)]).length = memory.length + 2 := by
        simp
      exact ih (k - (iteration + 1).toNat) (by omega) _
        (iteration + 1) (by omega) (by omega) (by omega) rfl

/-- C4 (amended): with the responses of the model given as a scripted
sequence, if response `k` is the first whose parsed action invokes the
`terminate` tool (earlier responses invoking plain tools) and the loop
reaches it (`k < max_iterations`), `run_agent` stops at that iteration
and returns the message from the args of that action
(`args.get("message", "Task completed")`); if no response ever invokes
`terminate` and `max_iterations ≥ 1`, the loop stops exactly after
`max_iterations` iterations and returns the exhaustion report.  (The
original claim omits the `max_iterations ≥ 1` proviso: for
`max_iterations ≤ 0` the loop body never runs and `run_agent` returns
`"Agent loop completed"`, not the exhaustion report.) -/
theorem run_agent_correct :
    ∀ (script : ℕ → List Char) (jsonParse : List Char → Option JValue)
      (toolExec : List Char → JValue → JValue)
      (pyFormat : JValue → List Char) (jsonDumps : JValue → List Char)
      (system_prompt task : List Char) (max_iterations : ℤ) (k : ℕ)
      (msg : JValue),
    ((∀ i < k, plainToolStep jsonParse (script i)) →
      terminateStep jsonParse (script k) msg →
      (k : ℤ) < max_iterations →
      run_agent (scriptedLLM script) jsonParse toolExec pyFormat jsonDumps
        system_prompt task max_iterations = Except.ok msg) ∧
    ((∀ i, plainToolStep jsonParse (script i)) →
      1 ≤ max_iterations →
      run_agent (scriptedLLM script) jsonParse toolExec pyFormat jsonDumps
        system_prompt task max_iterations =
        Except.ok (JValue.str
          ("Agent reached maximum iterations without completing task".toList))) := by
  intro script jsonParse toolExec pyFormat jsonDumps system_prompt task
    max_iterations k msg
  constructor
  · intro hpre hterm hk
    rw [run_agent]
    exact run_agentLoop_reaches_terminate script jsonParse toolExec pyFormat
      jsonDumps max_iterations k msg hpre hterm hk k _ 0 rfl (by omega)
      (by omega) (by omega)
  · intro hscript hmax
    rw [run_agent]
    exact run_agentLoop_exhaust script jsonParse toolExec pyFormat jsonDumps
      max_iterations hscript max_iterations.toNat _ 0 rfl (by omega)
      (by omega) (by omega)

/-- C4 counterexample to the unamended exhaustion clause: with
`max_iterations = 0` and a scripted model that never invokes
`terminate`, `run_agent` returns `"Agent loop completed"`, which is not
the exhaustion report. -/
theorem run_agent_zero_iterations_counterexample :
    run_agent (scriptedLLM (fun _ => [])) (fun _ => none)
        (fun _ _ => JValue.null) (fun _ => []) (fun _ => []) [] [] 0 =
      Except.ok (JValue.str ("Agent loop completed".toList)) ∧
    ("Agent loop completed".toList) ≠
      ("Agent reached maximum iterations without completing task".toList) := by
  constructor
  · rw [run_agent, run_agentLoop]
    rw [dif_neg (by omega)]
  · decide

end LLMlite
